import Mathlib

/-!
# Verification of the trigger-based watcher (`watcher_trigger.go`)

Shallow embedding of the filesystem-watch coordinator used for kqueue/FEN-style
native event facilities.  The watch table, the public operations
(`Watch`/`Unwatch`/`Rewatch`/`Close`) and the event-processing pipeline
(`process`, `dir`, `file`, `decode`) are translated from the source.
The platform-specific pieces that are not part of the sources (the portable and
native flag constants, the `not2nat`/`nat2not` tables, and the native trigger
implementation) are modelled from the specification's contract for them.
-/

namespace Notify

/-- Event bitmask (Go `notify.Event`, an `int64` used as a bit set; only
bitwise and/or/and-not are performed on it, so nonnegative `Nat` is exact). -/
abbrev Event := Nat

/-- Modelled from the spec: portable event kinds are distinct bits of the
event bitmask (the concrete values live in platform files outside the
sources). -/
def Create : Event := 1

/-- Modelled from the spec: portable Remove kind. -/
def Remove : Event := 2

/-- Modelled from the spec: portable Write kind. -/
def Write : Event := 4

/-- Modelled from the spec: portable Rename kind. -/
def Rename : Event := 8

/-- Modelled from the spec: native companion flag of `Create`; each portable
kind pairs with one distinct native flag bit. -/
def natCreate : Event := 16

/-- Modelled from the spec: native companion flag of `Remove`. -/
def natRemove : Event := 32

/-- Modelled from the spec: native companion flag of `Write`. -/
def natWrite : Event := 64

/-- Modelled from the spec: native companion flag of `Rename`. -/
def natRename : Event := 128

/-- Modelled from the spec: the `not2nat` table mapping a portable kind to its
native companion flag (platform file outside the sources). -/
def not2nat (e : Event) : Event :=
  if e = Create then natCreate
  else if e = Remove then natRemove
  else if e = Write then natWrite
  else if e = Rename then natRename
  else 0

/-- Modelled from the spec: the `nat2not` table (native flag, portable kind);
the inverse pairing of `not2nat`. -/
def nat2not : List (Event × Event) :=
  [(natCreate, Create), (natRemove, Remove), (natWrite, Write), (natRename, Rename)]

/-- `a &^ b` of Go: keep the bits of `a` that are not in `b`.  Since
`a &&& b` is a bitwise subset of `a`, xoring it back out is exactly
and-not (see `andNot_testBit`). -/
def andNot (a b : Event) : Event := a ^^^ (a &&& b)

/-- File metadata snapshot (`os.FileInfo`): only the base name and the
is-directory bit are consumed by the watcher. -/
structure FileInfo where
  name : String
  isDir : Bool
deriving DecidableEq, Repr

/-- Watch record (Go `watched`): path, metadata snapshot and the two event
masks (`eDir` for events requested of the path, `eNonDir` for events requested
of it as a non-directory child). -/
structure watched where
  p : String
  fi : FileInfo
  eDir : Event
  eNonDir : Event
deriving DecidableEq, Repr

/-- Portable event (Go `event`): path, kind bitmask and is-directory flag; the
opaque native payload is not observable and is dropped. -/
structure event where
  p : String
  e : Event
  isdir : Bool
deriving DecidableEq, Repr

/-- Errors surfaced by the coordinator and the native facility. -/
inductive Err where
  | alreadyWatched
  | notWatched
  | notExist
  | nativeFail
deriving DecidableEq, Repr

/-- Go `mode`: which of the two masks an operation addresses. -/
inductive mode where
  | dir
  | ndir
  | both
deriving DecidableEq, Repr

/-- Filesystem oracle: `stat` (`none` = does not exist) and a directory child
listing (`Except.error` = `os.Open`/`Readdir` failure, with `Err.notExist`
playing the role of an `os.IsNotExist` error). -/
structure Fs where
  stat : String → Option FileInfo
  readdir : String → Except Err (List FileInfo)

/-- Failure injection for the native facility: `newErr p` is the error of
`trigger.NewWatched` on `p` (if any), `watchErr p` the error of the native
`trigger.Watch` registration call on `p` (if any). -/
structure Oracle where
  newErr : String → Option Err
  watchErr : String → Option Err

/-- The oracle under which every native allocation and registration succeeds. -/
def okOracle : Oracle := ⟨fun _ => none, fun _ => none⟩

/-- Watcher state (Go `trg`): the watch table `pthLkp`, the set of paths the
native facility currently holds a registration for (owned by the trigger,
modelled from the spec's trigger contract), and whether the native handle has
been released. -/
structure Trg where
  pthLkp : List (String × watched)
  natReg : List String
  closed : Bool
deriving DecidableEq, Repr

/-- Table lookup (`t.pthLkp[p]`). -/
def lkup (m : List (String × watched)) (p : String) : Option watched :=
  match m with
  | [] => none
  | (q, w) :: rest => if q = p then some w else lkup rest p

/-- Table write (`t.pthLkp[p] = w`): replace the entry of key `p`, or append
a new entry (Go map assignment). -/
def put (m : List (String × watched)) (p : String) (w : watched) :
    List (String × watched) :=
  match m with
  | [] => [(p, w)]
  | (q, w0) :: rest => if q = p then (q, w) :: rest else (q, w0) :: put rest p w

/-- Table delete (`delete(t.pthLkp, p)`). -/
def delk (m : List (String × watched)) (p : String) : List (String × watched) :=
  match m with
  | [] => []
  | (q, w0) :: rest => if q = p then delk rest p else (q, w0) :: delk rest p

/-- Add a path to the native registration set. -/
def insReg (r : List String) (p : String) : List String :=
  if p ∈ r then r else p :: r

/-- Drop a path from the native registration set. -/
def eraseReg (r : List String) (p : String) : List String :=
  r.filter (fun q => q ≠ p)

/-- Modelled from the spec (§4.1 `registerOrUpdate`): (re)register native
interest in a path; idempotent; failures injected by the oracle. -/
def tnatWatch (o : Oracle) (p : String) (t : Trg) : Option Err × Trg :=
  match o.watchErr p with
  | some er => (some er, t)
  | none => (none, { t with natReg := insReg t.natReg p })

/-- Modelled from the spec (§4.1 `unregister`): remove native interest; fails
with the not-watched condition if the path is not registered. -/
def tnatUnwatch (p : String) (t : Trg) : Option Err × Trg :=
  if p ∈ t.natReg then (none, { t with natReg := eraseReg t.natReg p })
  else (some Err.notWatched, t)

/-- Modelled from the spec (§4.1 `delete`): `t.t.Del` drops the table entry
and, by closing the per-path native handle, the native registration. -/
def tdel (p : String) (t : Trg) : Trg :=
  { t with pthLkp := delk t.pthLkp p, natReg := eraseReg t.natReg p }

/-- `filepath.Join p name` for a single child name. -/
def pjoin (p n : String) : String := p ++ "/" ++ n

/-- `strings.HasPrefix s pre` (byte-wise = character-wise for valid UTF-8). -/
def hasPfx (s pre : String) : Bool := pre.data.isPrefixOf s.data

/-- The mask updates of `singlewatch`'s `switch direct`. -/
def setMasks (w : watched) (direct : mode) (e : Event) : watched :=
  match direct with
  | .dir => { w with eDir := w.eDir ||| e }
  | .ndir => { w with eNonDir := w.eNonDir ||| e }
  | .both => { w with eDir := w.eDir ||| e, eNonDir := w.eNonDir ||| e }

/-- The mask updates of `singleunwatch`'s `switch direct`. -/
def clearMasks (w : watched) (direct : mode) : watched :=
  match direct with
  | .dir => { w with eDir := 0 }
  | .ndir => { w with eNonDir := 0 }
  | .both => { w with eDir := 0, eNonDir := 0 }

/-- Go `singlewatch`: look the path up; allocate a fresh record if absent;
merge the requested mask into the addressed mask(s); natively (re)register;
record a fresh record only after successful registration; report
`errAlreadyWatched` when the path already had a record. -/
def singlewatch (o : Oracle) (p : String) (e : Event) (direct : mode)
    (fi : FileInfo) (t : Trg) : Option Err × Trg :=
  match lkup t.pthLkp p with
  | some w0 =>
      let w := setMasks w0 direct e
      let t1 := { t with pthLkp := put t.pthLkp p w }
      match tnatWatch o p t1 with
      | (some er, t2) => (some er, t2)
      | (none, t2) => (some Err.alreadyWatched, t2)
  | none =>
      match o.newErr p with
      | some er => (some er, t)
      | none =>
          let w := setMasks { p := p, fi := fi, eDir := 0, eNonDir := 0 } direct e
          match tnatWatch o p t with
          | (some er, t2) => (some er, t2)
          | (none, t2) => (none, { t2 with pthLkp := put t2.pthLkp p w })

/-- Go `decode`: translate fired native flags to the portable mask, keeping a
flag or its portable companion only when the watch requested it. -/
def decode (o w : Event) : Event :=
  nat2not.foldl
    (fun e fn =>
      if o &&& fn.1 != 0 then
        let e1 := if w &&& fn.1 != 0 then e ||| fn.1 else e
        if w &&& fn.2 != 0 then e1 ||| fn.2 else e1
      else e) 0

/-- Go `singleunwatch`: clear the addressed mask(s) (in place, so the table
sees the cleared masks even on failure), natively unregister, then either
re-register the remaining mask or drop the record. -/
def singleunwatch (o : Oracle) (p : String) (direct : mode) (t : Trg) :
    Option Err × Trg :=
  match lkup t.pthLkp p with
  | none => (some Err.notWatched, t)
  | some w0 =>
      let w := clearMasks w0 direct
      let t1 := { t with pthLkp := put t.pthLkp p w }
      match tnatUnwatch p t1 with
      | (some er, t2) => (some er, t2)
      | (none, t2) =>
          if w.eNonDir ||| w.eDir != 0 then
            let md := if w.eNonDir == 0 then mode.ndir else mode.dir
            match singlewatch o p (w.eNonDir ||| w.eDir) md w.fi t2 with
            | (some er, t3) =>
                if er = Err.alreadyWatched then (none, t3) else (some er, t3)
            | (none, t3) => (none, t3)
          else
            (none, tdel p t2)

/-- The per-child loop of `watch`'s directory walk: register each listed child
as a non-directory watch, tolerating `errAlreadyWatched`, aborting on any
other error. -/
def watchChildren (o : Oracle) (p : String) (e : Event) :
    List FileInfo → Trg → Option Err × Trg
  | [], t => (none, t)
  | fi :: rest, t =>
      match singlewatch o (pjoin p fi.name) e .ndir fi t with
      | (some er, t1) =>
          if er = Err.alreadyWatched then watchChildren o p e rest t1
          else (some er, t1)
      | (none, t1) => watchChildren o p e rest t1

/-- Go `watch`: register the path itself (a real failure is swallowed and
reported as success, only `errAlreadyWatched` falls through), then for a
directory walk and register the immediate children. -/
def watch (fs : Fs) (o : Oracle) (p : String) (e : Event) (fi : FileInfo)
    (t : Trg) : Option Err × Trg :=
  let step := fun (t1 : Trg) =>
    if fi.isDir then
      match fs.readdir p with
      | .error er => (some er, t1)
      | .ok ls => watchChildren o p e ls t1
    else (none, t1)
  match singlewatch o p e .dir fi t with
  | (some er, t1) =>
      if er = Err.alreadyWatched then step t1 else (none, t1)
  | (none, t1) => step t1

/-- The per-child loop of `unwatch`'s directory walk: unwatch each listed
child's non-directory mask, tolerating `errNotWatched`. -/
def unwatchChildren (o : Oracle) (p : String) :
    List FileInfo → Trg → Option Err × Trg
  | [], t => (none, t)
  | fi :: rest, t =>
      match singleunwatch o (pjoin p fi.name) .ndir t with
      | (some er, t1) =>
          if er = Err.notWatched then unwatchChildren o p rest t1
          else (some er, t1)
      | (none, t1) => unwatchChildren o p rest t1

/-- Go `unwatch`: for a directory first unwatch all listed children, then the
path's own directory mask. -/
def unwatch (fs : Fs) (o : Oracle) (p : String) (fi : FileInfo) (t : Trg) :
    Option Err × Trg :=
  if fi.isDir then
    match fs.readdir p with
    | .error er => (some er, t)
    | .ok ls =>
        match unwatchChildren o p ls t with
        | (some er, t1) => (some er, t1)
        | (none, t1) => singleunwatch o p .dir t1
  else singleunwatch o p .dir t

/-- Public `Watch`: stat, then register under the lock. -/
def Watch (fs : Fs) (o : Oracle) (p : String) (e : Event) (t : Trg) :
    Option Err × Trg :=
  match fs.stat p with
  | none => (some Err.notExist, t)
  | some fi => watch fs o p e fi t

/-- Public `Unwatch`: stat, then unwatch under the lock. -/
def Unwatch (fs : Fs) (o : Oracle) (p : String) (t : Trg) : Option Err × Trg :=
  match fs.stat p with
  | none => (some Err.notExist, t)
  | some fi => unwatch fs o p fi t

/-- Public `Rewatch`: stat, unwatch, and only on success re-watch with the new
mask; the old-mask argument is ignored (Go binds it `_`) and the returned
error is unconditionally `nil` after a successful stat. -/
def Rewatch (fs : Fs) (o : Oracle) (p : String) (oldMask e : Event) (t : Trg) :
    Option Err × Trg :=
  match fs.stat p with
  | none => (some Err.notExist, t)
  | some fi =>
      match unwatch fs o p fi t with
      | (none, t1) => (none, (watch fs o p e fi t1).2)
      | (some _, t1) => (none, t1)

/-- `nonil`: keep the first non-nil error. -/
def nonil (a b : Option Err) : Option Err :=
  match a with
  | some er => some er
  | none => b

/-- The teardown loop of `Close`: unwatch every table entry, accumulating but
never acting on individual failures.  (Go ranges over the live map, which
skips entries removed by earlier iterations; visiting such an entry is a
state no-op that merely records a tolerable not-watched error.) -/
def closeEntries (fs : Fs) (o : Oracle) :
    List (String × watched) → Trg → Option Err × Trg
  | [], t => (none, t)
  | (_, w) :: rest, t =>
      match unwatch fs o w.p w.fi t with
      | (some er, t1) =>
          let r := closeEntries fs o rest t1
          (nonil (some er) r.1, r.2)
      | (none, t1) => closeEntries fs o rest t1

/-- Public `Close`: stop the trigger and wait for the monitor loop's
acknowledgement (the concurrency handshake, modelled from the spec as having
completed), then unwatch every remaining entry and release the native
handle. -/
def Close (fs : Fs) (o : Oracle) (t : Trg) : Option Err × Trg :=
  match closeEntries fs o t.pthLkp t with
  | (er, t1) => (er, { t1 with closed := true })

/-- Go `file`: the single portable event for a non-directory record. -/
def file (w : watched) (e : Event) : List event :=
  [⟨w.p, e, w.fi.isDir⟩]

/-- The descendant scan of `dir`'s rename branch, over a snapshot of the table
keys (each iteration only deletes its own key, so this matches the Go range):
unwatch every descendant, tolerating failures, and synthesize an event for it
when the *renamed directory's* combined mask requests Rename. -/
def descendScan (o : Oracle) (w : watched) (e : Event) :
    List String → Trg → List event × Trg
  | [], t => ([], t)
  | p :: rest, t =>
      if hasPfx p (w.p ++ "/") then
        let t1 := (singleunwatch o p .both t).2
        let evs : List event :=
          if (w.eDir ||| w.eNonDir) &&& (not2nat Rename ||| Rename) != 0 then
            [⟨p, andNot (andNot ((w.eDir ||| w.eNonDir) &&& e) Write) (not2nat Write),
              w.fi.isDir⟩]
          else []
        let r := descendScan o w e rest t1
        (evs ++ r.1, r.2)
      else descendScan o w e rest t

/-- The re-scan loop of `dir`'s write branch: try to register each listed
child as a non-directory watch under the parent's `eDir`; synthesize Remove
for a vanished child when Remove was requested of the parent, nothing for an
already-watched child, and Create for a fresh child when Create was requested
of the parent. -/
def rescan (o : Oracle) (w : watched) :
    List FileInfo → Trg → List event × Trg
  | [], t => ([], t)
  | fi :: rest, t =>
      let p := pjoin w.p fi.name
      match singlewatch o p w.eDir .ndir fi t with
      | (some er, t1) =>
          let evs : List event :=
            if er = Err.notExist then
              if w.eDir &&& Remove != 0 then [⟨p, Remove, fi.isDir⟩] else []
            else []
          let r := rescan o w rest t1
          (evs ++ r.1, r.2)
      | (none, t1) =>
          let evs : List event :=
            if w.eDir &&& Create != 0 then [⟨p, Create, fi.isDir⟩] else []
          let r := rescan o w rest t1
          (evs ++ r.1, r.2)

/-- Go `dir`: directory reconciliation.  On remove/rename emit the
directory's own event (write bits masked out); on rename additionally scan
the table for descendants; then drop the directory's record.  On a native
write re-scan the directory, discarding silently when it no longer exists. -/
def dir (fs : Fs) (o : Oracle) (w : watched) (e ge : Event) (t : Trg) :
    List event × Trg :=
  if ge &&& (not2nat Rename ||| not2nat Remove) != 0 then
    let ev0 : event := ⟨w.p, andNot (andNot e Write) (not2nat Write), true⟩
    let r :=
      if ge &&& not2nat Rename != 0 then
        descendScan o w e (t.pthLkp.map Prod.fst) t
      else ([], t)
    (ev0 :: r.1, tdel w.p r.2)
  else if ge &&& not2nat Write != 0 then
    match fs.readdir w.p with
    | .error _ => ([], t)
    | .ok ls => rescan o w ls t
  else ([], t)

/-- The native-registration refresh step of `process`: when the notification
is not a remove/rename and the path still stats, re-issue the native
registration; on a refresh failure drop the record (treat as removed). -/
def refreshStep (fs : Fs) (o : Oracle) (w : watched) (ge : Event) (t : Trg) :
    Trg :=
  if ge &&& (not2nat Remove ||| not2nat Rename) == 0 then
    match fs.stat w.p with
    | none => t
    | some _ =>
        match tnatWatch o w.p t with
        | (some _, t') => tdel w.p t'
        | (none, t') => t'
  else t

/-- Go `process`: resolve the notification to its record, refresh the native
registration when the notification is not a remove/rename (dropping the
record if the refresh fails), decode the flags, discard unobservable events,
dispatch to `file`/`dir`, and finally drop the record on remove/rename. -/
def process (fs : Fs) (o : Oracle) (p : String) (ge : Event) (t : Trg) :
    List event × Trg :=
  match lkup t.pthLkp p with
  | none => ([], t)
  | some w =>
      let e := decode ge (w.eDir ||| w.eNonDir)
      let t1 := refreshStep fs o w ge t
      if e == 0 && (!w.fi.isDir || ge &&& not2nat Write == 0) then ([], t1)
      else
        let r := if w.fi.isDir then dir fs o w e ge t1 else (file w e, t1)
        let t3 :=
          if ge &&& (not2nat Remove ||| not2nat Rename) != 0 then tdel p r.2
          else r.2
        (r.1, t3)

/-! ## Bitmask helper lemmas -/

theorem andNot_testBit (a b i : Nat) :
    (andNot a b).testBit i = (a.testBit i && !(b.testBit i)) := by
  simp only [andNot, Nat.testBit_xor, Nat.testBit_and]
  cases a.testBit i <;> cases b.testBit i <;> rfl

theorem ne_zero_of_testBit {a : Nat} (i : Nat) (h : a.testBit i = true) :
    a ≠ 0 := by
  intro h0
  rw [h0] at h
  simp at h

theorem land_eq_zero_of_testBit {a b : Nat}
    (h : ∀ i, a.testBit i = false ∨ b.testBit i = false) : a &&& b = 0 := by
  apply Nat.eq_of_testBit_eq
  intro i
  rcases h i with h' | h' <;> simp [h']

theorem testBit_of_land_two_pow {a : Nat} {i : Nat} (h : a &&& 2 ^ i ≠ 0) :
    a.testBit i = true := by
  by_contra hf
  apply h
  apply land_eq_zero_of_testBit
  intro j
  by_cases hji : j = i
  · subst hji
    exact Or.inl (by simpa using hf)
  · exact Or.inr (Nat.testBit_two_pow_of_ne (fun he => hji he.symm))

theorem land_two_pow_ne_zero {a : Nat} {i : Nat} (h : a.testBit i = true) :
    a &&& 2 ^ i ≠ 0 := by
  apply ne_zero_of_testBit i
  simp [Nat.testBit_and, h, Nat.testBit_two_pow_self]

theorem lor_land_eq_zero {a b k : Nat} (ha : a &&& k = 0) (hb : b &&& k = 0) :
    (a ||| b) &&& k = 0 := by
  apply land_eq_zero_of_testBit
  intro i
  have ha' := congrArg (Nat.testBit · i) ha
  have hb' := congrArg (Nat.testBit · i) hb
  simp only [Nat.testBit_and, Nat.zero_testBit, Bool.and_eq_false_iff] at ha' hb'
  rcases ha' with h | h
  · rcases hb' with h2 | h2
    · simp [Nat.testBit_or, h, h2]
    · exact Or.inr h2
  · exact Or.inr h

/-! ## Watch-table (association list) lemmas -/

theorem lkup_put_self (m : List (String × watched)) (p : String) (w : watched) :
    lkup (put m p w) p = some w := by
  induction m with
  | nil => simp [put, lkup]
  | cons hd tl ih =>
      by_cases h : hd.1 = p
      · simp [put, lkup, h]
      · simp [put, lkup, h, ih]

theorem lkup_put_ne (m : List (String × watched)) (p q : String) (w : watched)
    (h : q ≠ p) : lkup (put m p w) q = lkup m q := by
  induction m with
  | nil =>
      simp only [put, lkup]
      rw [if_neg (fun he : p = q => h he.symm)]
  | cons hd tl ih =>
      by_cases h1 : hd.1 = p
      · have hq : ¬ hd.1 = q := by rw [h1]; exact fun he => h he.symm
        simp only [put, if_pos h1, lkup, if_neg hq]
      · simp only [put, if_neg h1, lkup, ih]

theorem lkup_delk_self (m : List (String × watched)) (p : String) :
    lkup (delk m p) p = none := by
  induction m with
  | nil => simp [delk, lkup]
  | cons hd tl ih =>
      by_cases h : hd.1 = p
      · simp [delk, h, ih]
      · simp [delk, lkup, h, ih]

theorem lkup_delk_ne (m : List (String × watched)) (p q : String) (h : q ≠ p) :
    lkup (delk m p) q = lkup m q := by
  induction m with
  | nil => simp [delk]
  | cons hd tl ih =>
      by_cases h1 : hd.1 = p
      · rw [delk]
        simp only [if_pos h1, ih, lkup]
        rw [if_neg (by rw [h1]; exact fun he => h he.symm)]
      · rw [delk]
        simp only [if_neg h1, lkup]
        by_cases h2 : hd.1 = q
        · simp [h2]
        · simp [h2, ih]

theorem mem_put (m : List (String × watched)) (p : String) (w : watched)
    (x : String × watched) (h : x ∈ put m p w) : x = (p, w) ∨ x ∈ m := by
  induction m with
  | nil =>
      simp only [put, List.mem_singleton] at h
      exact Or.inl h
  | cons hd tl ih =>
      by_cases h1 : hd.1 = p
      · simp only [put, if_pos h1, List.mem_cons] at h
        rcases h with h | h
        · exact Or.inl (by rw [h, h1])
        · exact Or.inr (List.mem_cons_of_mem _ h)
      · simp only [put, if_neg h1, List.mem_cons] at h
        rcases h with h | h
        · exact Or.inr (by simp [h])
        · rcases ih h with h' | h'
          · exact Or.inl h'
          · exact Or.inr (List.mem_cons_of_mem _ h')

theorem mem_delk (m : List (String × watched)) (p : String)
    (x : String × watched) (h : x ∈ delk m p) : x ∈ m ∧ x.1 ≠ p := by
  induction m with
  | nil => simp [delk] at h
  | cons hd tl ih =>
      by_cases h1 : hd.1 = p
      · rw [delk, if_pos h1] at h
        exact ⟨List.mem_cons_of_mem _ (ih h).1, (ih h).2⟩
      · rw [delk, if_neg h1] at h
        rcases List.mem_cons.1 h with h' | h'
        · exact ⟨by simp [h'], by rw [h']; exact h1⟩
        · exact ⟨List.mem_cons_of_mem _ (ih h').1, (ih h').2⟩

theorem lkup_mem (m : List (String × watched)) (p : String) (w : watched)
    (h : lkup m p = some w) : (p, w) ∈ m := by
  induction m with
  | nil => simp [lkup] at h
  | cons hd tl ih =>
      by_cases h1 : hd.1 = p
      · rw [lkup, if_pos h1] at h
        cases h
        rw [← h1]
        exact List.mem_cons_self _ _
      · exact List.mem_cons_of_mem _ (ih (by rwa [lkup, if_neg h1] at h))

theorem mem_keys_put (m : List (String × watched)) (p q : String) (w : watched)
    (h : q ∈ (put m p w).map Prod.fst) : q = p ∨ q ∈ m.map Prod.fst := by
  rcases List.mem_map.1 h with ⟨x, hx, hq⟩
  rcases mem_put m p w x hx with h' | h'
  · left; rw [← hq, h']
  · right; exact List.mem_map.2 ⟨x, h', hq⟩

theorem keys_put_nodup (m : List (String × watched)) (p : String) (w : watched)
    (h : (m.map Prod.fst).Nodup) : ((put m p w).map Prod.fst).Nodup := by
  induction m with
  | nil => simp [put]
  | cons hd tl ih =>
      have h' : (hd.1 :: tl.map Prod.fst).Nodup := by
        simpa only [List.map_cons] using h
      rcases List.nodup_cons.1 h' with ⟨hhd, htl⟩
      by_cases h1 : hd.1 = p
      · rw [put, if_pos h1, List.map_cons]
        exact List.nodup_cons.2 ⟨hhd, htl⟩
      · rw [put, if_neg h1, List.map_cons]
        refine List.nodup_cons.2 ⟨fun hmem => ?_, ih htl⟩
        rcases mem_keys_put tl p hd.1 w hmem with h' | h'
        · exact h1 h'
        · exact hhd h'

theorem keys_delk_nodup (m : List (String × watched)) (p : String)
    (h : (m.map Prod.fst).Nodup) : ((delk m p).map Prod.fst).Nodup := by
  induction m with
  | nil => simp [delk]
  | cons hd tl ih =>
      have h' : (hd.1 :: tl.map Prod.fst).Nodup := by
        simpa only [List.map_cons] using h
      rcases List.nodup_cons.1 h' with ⟨hhd, htl⟩
      by_cases h1 : hd.1 = p
      · rw [delk, if_pos h1]
        exact ih htl
      · rw [delk, if_neg h1, List.map_cons]
        refine List.nodup_cons.2 ⟨fun hmem => ?_, ih htl⟩
        rcases List.mem_map.1 hmem with ⟨x, hx, hq⟩
        exact hhd (List.mem_map.2 ⟨x, (mem_delk tl p x hx).1, hq⟩)

theorem mem_insReg (r : List String) (p q : String) :
    q ∈ insReg r p ↔ q = p ∨ q ∈ r := by
  by_cases h : p ∈ r
  · simp only [insReg, if_pos h]
    constructor
    · exact Or.inr
    · rintro (rfl | hq)
      · exact h
      · exact hq
  · simp [insReg, if_neg h]

theorem mem_eraseReg (r : List String) (p q : String) :
    q ∈ eraseReg r p ↔ q ∈ r ∧ q ≠ p := by
  simp [eraseReg, List.mem_filter]

theorem insReg_nodup (r : List String) (p : String) (h : r.Nodup) :
    (insReg r p).Nodup := by
  by_cases hm : p ∈ r
  · simpa [insReg, if_pos hm] using h
  · rw [insReg, if_neg hm]
    exact List.nodup_cons.2 ⟨hm, h⟩

theorem eraseReg_nodup (r : List String) (p : String) (h : r.Nodup) :
    (eraseReg r p).Nodup :=
  List.Nodup.filter _ h

/-! ## The watch-table invariant -/

/-- Well-formedness of a watcher state: keys are unique (the claimed
at-most-one-record-per-path invariant), each record carries its key as its
path, each record's combined mask is nonzero (the claimed
record-exists-iff-mask-nonzero invariant), the native registration set has no
duplicates, and every table entry is natively registered. -/
def Wf (t : Trg) : Prop :=
  (t.pthLkp.map Prod.fst).Nodup ∧
  t.natReg.Nodup ∧
  (∀ pr ∈ t.pthLkp, (pr : String × watched).2.p = pr.1) ∧
  (∀ pr ∈ t.pthLkp, (pr : String × watched).2.eDir ||| pr.2.eNonDir ≠ 0) ∧
  (∀ pr ∈ t.pthLkp, (pr : String × watched).1 ∈ t.natReg)

instance (t : Trg) : Decidable (Wf t) := by
  unfold Wf
  infer_instance

theorem Wf.lkup_path {t : Trg} (h : Wf t) {p : String} {w : watched}
    (hl : lkup t.pthLkp p = some w) : w.p = p :=
  h.2.2.1 _ (lkup_mem _ _ _ hl)

theorem Wf.lkup_mask {t : Trg} (h : Wf t) {p : String} {w : watched}
    (hl : lkup t.pthLkp p = some w) : w.eDir ||| w.eNonDir ≠ 0 :=
  h.2.2.2.1 _ (lkup_mem _ _ _ hl)

theorem Wf.lkup_reg {t : Trg} (h : Wf t) {p : String} {w : watched}
    (hl : lkup t.pthLkp p = some w) : p ∈ t.natReg :=
  h.2.2.2.2 _ (lkup_mem _ _ _ hl)

/-! ## Canonical equations for `singlewatch` and `singleunwatch` -/

theorem singlewatch_found (o : Oracle) (p : String) (e : Event) (direct : mode)
    (fi : FileInfo) (t : Trg) (w0 : watched)
    (hl : lkup t.pthLkp p = some w0) (ho : o.watchErr p = none) :
    singlewatch o p e direct fi t =
      (some Err.alreadyWatched,
        { t with pthLkp := put t.pthLkp p (setMasks w0 direct e),
                 natReg := insReg t.natReg p }) := by
  simp [singlewatch, hl, tnatWatch, ho]

theorem singlewatch_found_fail (o : Oracle) (p : String) (e : Event)
    (direct : mode) (fi : FileInfo) (t : Trg) (w0 : watched) (er : Err)
    (hl : lkup t.pthLkp p = some w0) (ho : o.watchErr p = some er) :
    singlewatch o p e direct fi t =
      (some er, { t with pthLkp := put t.pthLkp p (setMasks w0 direct e) }) := by
  simp [singlewatch, hl, tnatWatch, ho]

theorem singlewatch_fresh (o : Oracle) (p : String) (e : Event) (direct : mode)
    (fi : FileInfo) (t : Trg)
    (hl : lkup t.pthLkp p = none) (hn : o.newErr p = none)
    (ho : o.watchErr p = none) :
    singlewatch o p e direct fi t =
      (none,
        { t with pthLkp := put t.pthLkp p (setMasks ⟨p, fi, 0, 0⟩ direct e),
                 natReg := insReg t.natReg p }) := by
  simp [singlewatch, hl, hn, tnatWatch, ho]

theorem singlewatch_fresh_fail (o : Oracle) (p : String) (e : Event)
    (direct : mode) (fi : FileInfo) (t : Trg) (er : Err)
    (hl : lkup t.pthLkp p = none) (hn : o.newErr p = none)
    (ho : o.watchErr p = some er) :
    singlewatch o p e direct fi t = (some er, t) := by
  simp [singlewatch, hl, hn, tnatWatch, ho]

theorem singleunwatch_absent (o : Oracle) (p : String) (direct : mode) (t : Trg)
    (hl : lkup t.pthLkp p = none) :
    singleunwatch o p direct t = (some Err.notWatched, t) := by
  simp [singleunwatch, hl]

theorem put_put (m : List (String × watched)) (p : String) (a b : watched) :
    put (put m p a) p b = put m p b := by
  induction m with
  | nil => simp [put]
  | cons hd tl ih =>
      by_cases h : hd.1 = p
      · simp [put, h]
      · simp [put, h, ih]

theorem delk_put (m : List (String × watched)) (p : String) (w : watched) :
    delk (put m p w) p = delk m p := by
  induction m with
  | nil => simp [put, delk]
  | cons hd tl ih =>
      by_cases h : hd.1 = p
      · simp [put, delk, h]
      · simp [put, delk, h, ih]

theorem eraseReg_idem (r : List String) (p : String) :
    eraseReg (eraseReg r p) p = eraseReg r p := by
  simp [eraseReg, List.filter_filter]

theorem mem_eraseReg_of_ne (r : List String) (p q : String) (h : q ≠ p) :
    q ∈ eraseReg r p ↔ q ∈ r := by
  rw [mem_eraseReg]
  exact ⟨fun hx => hx.1, fun hx => ⟨hx, h⟩⟩

theorem singleunwatch_zero (o : Oracle) (p : String) (direct : mode) (t : Trg)
    (w0 : watched) (hl : lkup t.pthLkp p = some w0) (hreg : p ∈ t.natReg)
    (hz : (clearMasks w0 direct).eNonDir ||| (clearMasks w0 direct).eDir = 0) :
    singleunwatch o p direct t =
      (none, { t with pthLkp := delk t.pthLkp p,
                      natReg := eraseReg t.natReg p }) := by
  simp only [singleunwatch, hl, tnatUnwatch]
  rw [if_pos hreg]
  simp only [hz]
  simp [tdel, delk_put, eraseReg_idem]

theorem singleunwatch_pos (o : Oracle) (p : String) (direct : mode) (t : Trg)
    (w0 : watched) (hl : lkup t.pthLkp p = some w0) (hreg : p ∈ t.natReg)
    (ho : o.watchErr p = none)
    (hz : (clearMasks w0 direct).eNonDir ||| (clearMasks w0 direct).eDir ≠ 0) :
    singleunwatch o p direct t =
      (none,
        { t with
            pthLkp :=
              put t.pthLkp p
                (setMasks (clearMasks w0 direct)
                  (if (clearMasks w0 direct).eNonDir == 0 then mode.ndir
                   else mode.dir)
                  ((clearMasks w0 direct).eNonDir |||
                    (clearMasks w0 direct).eDir))
            natReg := insReg (eraseReg t.natReg p) p }) := by
  simp only [singleunwatch, hl, tnatUnwatch]
  rw [if_pos hreg]
  dsimp only
  rw [if_pos (show ((clearMasks w0 direct).eNonDir |||
      (clearMasks w0 direct).eDir != 0) = true by simpa using hz)]
  rw [singlewatch_found o p _ _ _ _ (clearMasks w0 direct)
    (lkup_put_self t.pthLkp p _) ho]
  dsimp only
  rw [if_pos rfl]
  simp [put_put]

theorem singlewatch_frame (o : Oracle) (p : String) (e : Event) (direct : mode)
    (fi : FileInfo) (t : Trg) (q : String) (h : q ≠ p) :
    lkup (singlewatch o p e direct fi t).2.pthLkp q = lkup t.pthLkp q := by
  unfold singlewatch
  cases hl : lkup t.pthLkp p with
  | some w0 =>
      cases ho : o.watchErr p <;>
        simp [tnatWatch, ho, lkup_put_ne _ _ _ _ h]
  | none =>
      cases hn : o.newErr p with
      | some er => simp
      | none =>
          cases ho : o.watchErr p <;>
            simp [tnatWatch, ho, lkup_put_ne _ _ _ _ h]

theorem singlewatch_natReg_frame (o : Oracle) (p : String) (e : Event)
    (direct : mode) (fi : FileInfo) (t : Trg) (q : String) (h : q ≠ p) :
    (q ∈ (singlewatch o p e direct fi t).2.natReg ↔ q ∈ t.natReg) := by
  unfold singlewatch
  cases hl : lkup t.pthLkp p with
  | some w0 =>
      cases ho : o.watchErr p <;>
        simp [tnatWatch, ho, mem_insReg, fun he : q = p => h he]
  | none =>
      cases hn : o.newErr p with
      | some er => simp
      | none =>
          cases ho : o.watchErr p <;>
            simp [tnatWatch, ho, mem_insReg, fun he : q = p => h he]

theorem singleunwatch_frame (o : Oracle) (p : String) (direct : mode) (t : Trg)
    (q : String) (h : q ≠ p) :
    lkup (singleunwatch o p direct t).2.pthLkp q = lkup t.pthLkp q := by
  unfold singleunwatch
  cases hl : lkup t.pthLkp p with
  | none => simp
  | some w0 =>
      simp only [tnatUnwatch]
      by_cases hreg : p ∈ t.natReg
      · rw [if_pos (by exact hreg)]
        by_cases hz :
            (clearMasks w0 direct).eNonDir ||| (clearMasks w0 direct).eDir = 0
        · simp only [hz]
          simp [tdel, lkup_delk_ne _ _ _ h, lkup_put_ne _ _ _ _ h]
        · simp only [hz, bne_iff_ne, ne_eq, not_false_eq_true, if_true]
          have hsw := singlewatch_frame o p
            ((clearMasks w0 direct).eNonDir ||| (clearMasks w0 direct).eDir)
            (if (clearMasks w0 direct).eNonDir == 0 then mode.ndir else mode.dir)
            (clearMasks w0 direct).fi
            { t with pthLkp := put t.pthLkp p (clearMasks w0 direct),
                     natReg := eraseReg t.natReg p } q h
          revert hsw
          cases hsw2 : singlewatch o p
            ((clearMasks w0 direct).eNonDir ||| (clearMasks w0 direct).eDir)
            (if (clearMasks w0 direct).eNonDir == 0 then mode.ndir else mode.dir)
            (clearMasks w0 direct).fi
            { t with pthLkp := put t.pthLkp p (clearMasks w0 direct),
                     natReg := eraseReg t.natReg p } with
          | mk er t3 =>
              intro hsw
              simp only at hsw
              cases er with
              | none => simpa [hsw2, lkup_put_ne _ _ _ _ h] using hsw
              | some er' =>
                  by_cases he : er' = Err.alreadyWatched <;>
                    simpa [hsw2, he, lkup_put_ne _ _ _ _ h] using hsw
      · rw [if_neg (by exact hreg)]
        simp [lkup_put_ne _ _ _ _ h]

/-! ## Preservation of the invariant -/

theorem lor_ne_zero_of_right {a b : Nat} (h : b ≠ 0) : a ||| b ≠ 0 := by
  rcases Nat.ne_zero_implies_bit_true h with ⟨i, hi⟩
  exact ne_zero_of_testBit i (by simp [Nat.testBit_or, hi])

theorem lor_ne_zero_of_left {a b : Nat} (h : a ≠ 0) : a ||| b ≠ 0 := by
  rcases Nat.ne_zero_implies_bit_true h with ⟨i, hi⟩
  exact ne_zero_of_testBit i (by simp [Nat.testBit_or, hi])

theorem setMasks_p (w : watched) (d : mode) (e : Event) :
    (setMasks w d e).p = w.p := by
  cases d <;> rfl

theorem setMasks_fi (w : watched) (d : mode) (e : Event) :
    (setMasks w d e).fi = w.fi := by
  cases d <;> rfl

theorem clearMasks_p (w : watched) (d : mode) : (clearMasks w d).p = w.p := by
  cases d <;> rfl

theorem setMasks_comb (w : watched) (d : mode) (e : Event) :
    (setMasks w d e).eDir ||| (setMasks w d e).eNonDir =
      (w.eDir ||| w.eNonDir) ||| e := by
  cases d <;>
    · apply Nat.eq_of_testBit_eq
      intro i
      simp only [setMasks, Nat.testBit_or]
      cases w.eDir.testBit i <;> cases w.eNonDir.testBit i <;>
        cases e.testBit i <;> rfl

theorem wf_update (t : Trg) (p : String) (w : watched) (r' : List String)
    (h : Wf t) (hp : w.p = p) (hm : w.eDir ||| w.eNonDir ≠ 0)
    (hr : r'.Nodup) (hsub : ∀ q ∈ t.natReg, q ∈ r') (hpmem : p ∈ r') :
    Wf { t with pthLkp := put t.pthLkp p w, natReg := r' } := by
  obtain ⟨h1, h2, h3, h4, h5⟩ := h
  refine ⟨keys_put_nodup _ _ _ h1, hr, ?_, ?_, ?_⟩
  · intro pr hpr
    rcases mem_put _ _ _ _ hpr with h' | h'
    · rw [h']
      exact hp
    · exact h3 _ h'
  · intro pr hpr
    rcases mem_put _ _ _ _ hpr with h' | h'
    · rw [h']
      exact hm
    · exact h4 _ h'
  · intro pr hpr
    rcases mem_put _ _ _ _ hpr with h' | h'
    · rw [h']
      exact hpmem
    · exact hsub _ (h5 _ h')

theorem wf_remove (t : Trg) (p : String) (h : Wf t) :
    Wf { t with pthLkp := delk t.pthLkp p, natReg := eraseReg t.natReg p } := by
  obtain ⟨h1, h2, h3, h4, h5⟩ := h
  refine ⟨keys_delk_nodup _ _ h1, eraseReg_nodup _ _ h2, ?_, ?_, ?_⟩
  · intro pr hpr
    exact h3 _ (mem_delk _ _ _ hpr).1
  · intro pr hpr
    exact h4 _ (mem_delk _ _ _ hpr).1
  · intro pr hpr
    rcases mem_delk _ _ _ hpr with ⟨hin, hne⟩
    exact (mem_eraseReg_of_ne _ _ _ hne).2 (h5 _ hin)

theorem tdel_wf (p : String) (t : Trg) (h : Wf t) : Wf (tdel p t) :=
  wf_remove t p h

theorem singlewatch_wf (p : String) (e : Event) (direct : mode)
    (fi : FileInfo) (t : Trg) (h : Wf t) (he : e ≠ 0) :
    Wf (singlewatch okOracle p e direct fi t).2 := by
  cases hl : lkup t.pthLkp p with
  | some w0 =>
      rw [singlewatch_found okOracle p e direct fi t w0 hl rfl]
      refine wf_update t p _ _ h ?_ ?_ (insReg_nodup _ _ h.2.1)
        (fun q hq => (mem_insReg _ _ _).2 (Or.inr hq)) ((mem_insReg _ _ _).2 (Or.inl rfl))
      · rw [setMasks_p]
        exact h.lkup_path hl
      · have := setMasks_comb w0 direct e
        intro hz
        rw [hz] at this
        exact h.lkup_mask hl (by
          have h0 : (w0.eDir ||| w0.eNonDir) ||| e = 0 := this.symm
          rcases Nat.ne_zero_implies_bit_true
            (lor_ne_zero_of_left (a := w0.eDir ||| w0.eNonDir) (b := e) ?_) with _
          · exact absurd h0 (lor_ne_zero_of_right he))
  | none =>
      rw [singlewatch_fresh okOracle p e direct fi t hl rfl rfl]
      refine wf_update t p _ _ h ?_ ?_ (insReg_nodup _ _ h.2.1)
        (fun q hq => (mem_insReg _ _ _).2 (Or.inr hq)) ((mem_insReg _ _ _).2 (Or.inl rfl))
      · rw [setMasks_p]
      · have := setMasks_comb ⟨p, fi, 0, 0⟩ direct e
        intro hz
        rw [hz] at this
        exact lor_ne_zero_of_right (a := (0 : Nat) ||| 0) he this.symm

theorem singleunwatch_wf (p : String) (direct : mode) (t : Trg) (h : Wf t) :
    Wf (singleunwatch okOracle p direct t).2 := by
  cases hl : lkup t.pthLkp p with
  | none =>
      rw [singleunwatch_absent _ _ _ _ hl]
      exact h
  | some w0 =>
      have hreg := h.lkup_reg hl
      by_cases hz :
          (clearMasks w0 direct).eNonDir ||| (clearMasks w0 direct).eDir = 0
      · rw [singleunwatch_zero okOracle p direct t w0 hl hreg hz]
        exact wf_remove t p h
      · rw [singleunwatch_pos okOracle p direct t w0 hl hreg rfl hz]
        refine wf_update t p _ _ h ?_ ?_ ?_ ?_ ?_
        · rw [setMasks_p, clearMasks_p]
          exact h.lkup_path hl
        · rw [setMasks_comb]
          exact lor_ne_zero_of_right hz
        · exact insReg_nodup _ _ (eraseReg_nodup _ _ h.2.1)
        · intro q hq
          refine (mem_insReg _ _ _).2 ?_
          by_cases hqp : q = p
          · exact Or.inl hqp
          · exact Or.inr ((mem_eraseReg_of_ne _ _ _ hqp).2 hq)
        · exact (mem_insReg _ _ _).2 (Or.inl rfl)

theorem watchChildren_wf (p : String) (e : Event) (ls : List FileInfo) (t : Trg)
    (h : Wf t) (he : e ≠ 0) : Wf (watchChildren okOracle p e ls t).2 := by
  induction ls generalizing t with
  | nil => exact h
  | cons fi rest ih =>
      cases hsw : singlewatch okOracle (pjoin p fi.name) e .ndir fi t with
      | mk er t1 =>
          have h1 : Wf t1 := by
            have := singlewatch_wf (pjoin p fi.name) e .ndir fi t h he
            rwa [hsw] at this
          cases er with
          | none => simpa [watchChildren, hsw] using ih t1 h1
          | some er' =>
              by_cases he' : er' = Err.alreadyWatched
              · simpa [watchChildren, hsw, he'] using ih t1 h1
              · simpa [watchChildren, hsw, he'] using h1

theorem watch_wf (fs : Fs) (p : String) (e : Event) (fi : FileInfo) (t : Trg)
    (h : Wf t) (he : e ≠ 0) : Wf (watch fs okOracle p e fi t).2 := by
  have hstep : ∀ t1 : Trg, Wf t1 →
      Wf (if fi.isDir then
            match fs.readdir p with
            | .error er => (some er, t1)
            | .ok ls => watchChildren okOracle p e ls t1
          else (none, t1)).2 := by
    intro t1 h1
    by_cases hd : fi.isDir
    · cases hrd : fs.readdir p with
      | error er => simp [hd, hrd, h1]
      | ok ls => simpa [hd, hrd] using watchChildren_wf p e ls t1 h1 he
    · simp [hd, h1]
  cases hsw : singlewatch okOracle p e .dir fi t with
  | mk er t1 =>
      have h1 : Wf t1 := by
        have := singlewatch_wf p e .dir fi t h he
        rwa [hsw] at this
      cases er with
      | none => simpa [watch, hsw] using hstep t1 h1
      | some er' =>
          by_cases he' : er' = Err.alreadyWatched
          · simpa [watch, hsw, he'] using hstep t1 h1
          · simpa [watch, hsw, he'] using h1

theorem unwatchChildren_wf (p : String) (ls : List FileInfo) (t : Trg)
    (h : Wf t) : Wf (unwatchChildren okOracle p ls t).2 := by
  induction ls generalizing t with
  | nil => exact h
  | cons fi rest ih =>
      cases hsu : singleunwatch okOracle (pjoin p fi.name) .ndir t with
      | mk er t1 =>
          have h1 : Wf t1 := by
            have := singleunwatch_wf (pjoin p fi.name) .ndir t h
            rwa [hsu] at this
          cases er with
          | none => simpa [unwatchChildren, hsu] using ih t1 h1
          | some er' =>
              by_cases he' : er' = Err.notWatched
              · simpa [unwatchChildren, hsu, he'] using ih t1 h1
              · simpa [unwatchChildren, hsu, he'] using h1

theorem unwatch_wf (fs : Fs) (p : String) (fi : FileInfo) (t : Trg)
    (h : Wf t) : Wf (unwatch fs okOracle p fi t).2 := by
  by_cases hd : fi.isDir
  · cases hrd : fs.readdir p with
    | error er => simp [unwatch, hd, hrd, h]
    | ok ls =>
        cases huc : unwatchChildren okOracle p ls t with
        | mk er t1 =>
            have h1 : Wf t1 := by
              have := unwatchChildren_wf p ls t h
              rwa [huc] at this
            cases er with
            | none =>
                simpa [unwatch, hd, hrd, huc] using
                  singleunwatch_wf p .dir t1 h1
            | some er' => simpa [unwatch, hd, hrd, huc] using h1
  · simpa [unwatch, hd] using singleunwatch_wf p .dir t h

theorem Watch_wf (fs : Fs) (p : String) (e : Event) (t : Trg)
    (h : Wf t) (he : e ≠ 0) : Wf (Watch fs okOracle p e t).2 := by
  cases hst : fs.stat p with
  | none => simpa [Watch, hst] using h
  | some fi => simpa [Watch, hst] using watch_wf fs p e fi t h he

theorem Unwatch_wf (fs : Fs) (p : String) (t : Trg) (h : Wf t) :
    Wf (Unwatch fs okOracle p t).2 := by
  cases hst : fs.stat p with
  | none => simpa [Unwatch, hst] using h
  | some fi => simpa [Unwatch, hst] using unwatch_wf fs p fi t h

theorem Rewatch_wf (fs : Fs) (p : String) (oldMask e : Event) (t : Trg)
    (h : Wf t) (he : e ≠ 0) : Wf (Rewatch fs okOracle p oldMask e t).2 := by
  cases hst : fs.stat p with
  | none => simpa [Rewatch, hst] using h
  | some fi =>
      cases huw : unwatch fs okOracle p fi t with
      | mk er t1 =>
          have h1 : Wf t1 := by
            have := unwatch_wf fs p fi t h
            rwa [huw] at this
          cases er with
          | none => simpa [Rewatch, hst, huw] using watch_wf fs p e fi t1 h1 he
          | some er' => simpa [Rewatch, hst, huw] using h1

theorem closeEntries_wf (fs : Fs) (l : List (String × watched)) (t : Trg)
    (h : Wf t) : Wf (closeEntries fs okOracle l t).2 := by
  induction l generalizing t with
  | nil => exact h
  | cons pr rest ih =>
      cases huw : unwatch fs okOracle pr.2.p pr.2.fi t with
      | mk er t1 =>
          have h1 : Wf t1 := by
            have := unwatch_wf fs pr.2.p pr.2.fi t h
            rwa [huw] at this
          cases er with
          | none => simpa [closeEntries, huw] using ih t1 h1
          | some er' =>
              cases hce : closeEntries fs okOracle rest t1 with
              | mk er2 t2 =>
                  have h2 : Wf t2 := by
                    have := ih t1 h1
                    rwa [hce] at this
                  simpa [closeEntries, huw, hce] using h2

theorem Close_wf (fs : Fs) (t : Trg) (h : Wf t) :
    Wf (Close fs okOracle t).2 := by
  cases hce : closeEntries fs okOracle t.pthLkp t with
  | mk er t1 =>
      have h1 : Wf t1 := by
        have := closeEntries_wf fs t.pthLkp t h
        rwa [hce] at this
      have : Wf { t1 with closed := true } := h1
      simpa [Close, hce] using this

theorem rescan_wf (w : watched) (ls : List FileInfo) (t : Trg)
    (h : Wf t) (he : w.eDir ≠ 0) : Wf (rescan okOracle w ls t).2 := by
  induction ls generalizing t with
  | nil => exact h
  | cons fi rest ih =>
      cases hsw : singlewatch okOracle (pjoin w.p fi.name) w.eDir .ndir fi t with
      | mk er t1 =>
          have h1 : Wf t1 := by
            have := singlewatch_wf (pjoin w.p fi.name) w.eDir .ndir fi t h he
            rwa [hsw] at this
          cases er with
          | none =>
              cases hrs : rescan okOracle w rest t1 with
              | mk evr t2 =>
                  have h2 : Wf t2 := by
                    have := ih t1 h1
                    rwa [hrs] at this
                  simpa [rescan, hsw, hrs] using h2
          | some er' =>
              cases hrs : rescan okOracle w rest t1 with
              | mk evr t2 =>
                  have h2 : Wf t2 := by
                    have := ih t1 h1
                    rwa [hrs] at this
                  simpa [rescan, hsw, hrs] using h2

theorem descendScan_wf (w : watched) (e : Event) (ks : List String) (t : Trg)
    (h : Wf t) : Wf (descendScan okOracle w e ks t).2 := by
  induction ks generalizing t with
  | nil => exact h
  | cons p rest ih =>
      by_cases hp : hasPfx p (w.p ++ "/")
      · have h1 : Wf (singleunwatch okOracle p .both t).2 :=
          singleunwatch_wf p .both t h
        cases hds : descendScan okOracle w e rest (singleunwatch okOracle p .both t).2 with
        | mk evr t2 =>
            have h2 : Wf t2 := by
              have := ih (singleunwatch okOracle p .both t).2 h1
              rwa [hds] at this
            simpa [descendScan, hp, hds] using h2
      · simpa [descendScan, hp] using ih t h

theorem wf_insReg (t : Trg) (p : String) (h : Wf t) :
    Wf { t with natReg := insReg t.natReg p } := by
  obtain ⟨h1, h2, h3, h4, h5⟩ := h
  exact ⟨h1, insReg_nodup _ _ h2, h3, h4,
    fun pr hpr => (mem_insReg _ _ _).2 (Or.inr (h5 _ hpr))⟩

theorem dir_wf (fs : Fs) (w : watched) (e ge : Event) (t : Trg) (h : Wf t)
    (hcase : w.eDir ≠ 0 ∨ ge &&& not2nat Write = 0 ∨
      ge &&& (not2nat Rename ||| not2nat Remove) ≠ 0) :
    Wf (dir fs okOracle w e ge t).2 := by
  by_cases hrr : ge &&& (not2nat Rename ||| not2nat Remove) ≠ 0
  · by_cases hrn : ge &&& not2nat Rename ≠ 0
    · cases hds : descendScan okOracle w e (t.pthLkp.map Prod.fst) t with
      | mk evs t1 =>
          have h1 : Wf t1 := by
            have := descendScan_wf w e (t.pthLkp.map Prod.fst) t h
            rwa [hds] at this
          simpa [dir, hrr, hrn, hds] using tdel_wf w.p t1 h1
    · simpa [dir, hrr, hrn] using tdel_wf w.p t h
  · by_cases hw : ge &&& not2nat Write ≠ 0
    · have heD : w.eDir ≠ 0 := by
        rcases hcase with h' | h' | h'
        · exact h'
        · exact absurd h' hw
        · exact absurd h' hrr
      cases hrd : fs.readdir w.p with
      | error er => simpa [dir, hrr, hw, hrd] using h
      | ok ls => simpa [dir, hrr, hw, hrd] using rescan_wf w ls t h heD
    · simpa [dir, hrr, hw] using h

theorem refreshStep_wf (fs : Fs) (w : watched) (ge : Event) (t : Trg)
    (h : Wf t) : Wf (refreshStep fs okOracle w ge t) := by
  by_cases hge : ge &&& (not2nat Remove ||| not2nat Rename) = 0
  · cases hst : fs.stat w.p with
    | none => simpa [refreshStep, hge, hst] using h
    | some fi =>
        simpa [refreshStep, hge, hst, tnatWatch, okOracle] using wf_insReg t w.p h
  · simpa [refreshStep, hge] using h

theorem process_wf (fs : Fs) (p : String) (ge : Event) (t : Trg) (h : Wf t)
    (hcase : ∀ w, lkup t.pthLkp p = some w → w.fi.isDir = true →
      w.eDir ≠ 0 ∨ ge &&& not2nat Write = 0 ∨
        ge &&& (not2nat Rename ||| not2nat Remove) ≠ 0) :
    Wf (process fs okOracle p ge t).2 := by
  cases hl : lkup t.pthLkp p with
  | none => simpa [process, hl] using h
  | some w =>
      have h1 : Wf (refreshStep fs okOracle w ge t) := refreshStep_wf fs w ge t h
      by_cases hd : w.fi.isDir
      · have h2 : Wf (dir fs okOracle w (decode ge (w.eDir ||| w.eNonDir)) ge
            (refreshStep fs okOracle w ge t)).2 :=
          dir_wf fs w _ ge _ h1 (hcase w hl hd)
        by_cases he0 : decode ge (w.eDir ||| w.eNonDir) = 0
        · by_cases hw0 : ge &&& not2nat Write = 0
          · simpa [process, hl, hd, he0, hw0] using h1
          · by_cases hge2 : ge &&& (not2nat Remove ||| not2nat Rename) = 0
            · simpa [process, hl, hd, he0, hw0, hge2] using h2
            · simpa [process, hl, hd, he0, hw0, hge2] using tdel_wf p _ h2
        · by_cases hge2 : ge &&& (not2nat Remove ||| not2nat Rename) = 0
          · simpa [process, hl, hd, he0, hge2] using h2
          · simpa [process, hl, hd, he0, hge2] using tdel_wf p _ h2
      · rw [Bool.not_eq_true] at hd
        by_cases he0 : decode ge (w.eDir ||| w.eNonDir) = 0
        · simpa [process, hl, hd, he0] using h1
        · by_cases hge2 : ge &&& (not2nat Remove ||| not2nat Rename) = 0
          · simpa [process, hl, hd, he0, hge2] using h1
          · simpa [process, hl, hd, he0, hge2] using tdel_wf p _ h1

/-! ## Path lemmas -/

theorem pjoin_ne (p n : String) : pjoin p n ≠ p := by
  intro h
  have hl := congrArg (fun s : String => s.data.length) h
  simp only [pjoin, String.data_append, List.length_append] at hl
  have h1 : ("/" : String).data.length = 1 := rfl
  rw [h1] at hl
  omega

theorem hasPfx_pjoin (p n : String) : hasPfx (pjoin p n) (p ++ "/") = true := by
  simp only [hasPfx, pjoin, String.data_append, List.isPrefixOf_iff_prefix]
  exact List.prefix_append _ _

theorem hasPfx_self (p : String) : hasPfx p (p ++ "/") = false := by
  by_contra h
  rw [Bool.not_eq_false, hasPfx, List.isPrefixOf_iff_prefix] at h
  have hle := h.length_le
  rw [String.data_append, List.length_append] at hle
  have h1 : ("/" : String).data.length = 1 := rfl
  rw [h1] at hle
  omega

theorem ne_pjoin_of_not_hasPfx (q p n : String)
    (h : hasPfx q (p ++ "/") = false) : q ≠ pjoin p n := by
  intro he
  rw [he, hasPfx_pjoin] at h
  cases h

/-! ## Frame lemmas -/

theorem refreshStep_pthLkp (fs : Fs) (w : watched) (ge : Event) (t : Trg) :
    (refreshStep fs okOracle w ge t).pthLkp = t.pthLkp := by
  by_cases hge : ge &&& (not2nat Remove ||| not2nat Rename) = 0
  · cases hst : fs.stat w.p with
    | none => simp [refreshStep, hge, hst]
    | some fi => simp [refreshStep, hge, hst, tnatWatch, okOracle]
  · simp [refreshStep, hge]

theorem watchChildren_frame (o : Oracle) (p : String) (e : Event)
    (ls : List FileInfo) (t : Trg) (q : String)
    (h : ∀ fi ∈ ls, q ≠ pjoin p fi.name) :
    lkup (watchChildren o p e ls t).2.pthLkp q = lkup t.pthLkp q := by
  induction ls generalizing t with
  | nil => rfl
  | cons fi rest ih =>
      have hq : q ≠ pjoin p fi.name := h fi (List.mem_cons_self _ _)
      have hfr := singlewatch_frame o (pjoin p fi.name) e .ndir fi t q hq
      cases hsw : singlewatch o (pjoin p fi.name) e .ndir fi t with
      | mk er t1 =>
          rw [hsw] at hfr
          have ihr := fun t' => ih t' (fun c hc => h c (List.mem_cons_of_mem _ hc))
          cases er with
          | none => simpa [watchChildren, hsw] using (ihr t1).trans hfr
          | some er' =>
              by_cases he' : er' = Err.alreadyWatched
              · simpa [watchChildren, hsw, he'] using (ihr t1).trans hfr
              · simpa [watchChildren, hsw, he'] using hfr

theorem unwatchChildren_frame (o : Oracle) (p : String) (ls : List FileInfo)
    (t : Trg) (q : String) (h : ∀ fi ∈ ls, q ≠ pjoin p fi.name) :
    lkup (unwatchChildren o p ls t).2.pthLkp q = lkup t.pthLkp q := by
  induction ls generalizing t with
  | nil => rfl
  | cons fi rest ih =>
      have hq : q ≠ pjoin p fi.name := h fi (List.mem_cons_self _ _)
      have hfr := singleunwatch_frame o (pjoin p fi.name) .ndir t q hq
      cases hsu : singleunwatch o (pjoin p fi.name) .ndir t with
      | mk er t1 =>
          rw [hsu] at hfr
          have ihr := fun t' => ih t' (fun c hc => h c (List.mem_cons_of_mem _ hc))
          cases er with
          | none => simpa [unwatchChildren, hsu] using (ihr t1).trans hfr
          | some er' =>
              by_cases he' : er' = Err.notWatched
              · simpa [unwatchChildren, hsu, he'] using (ihr t1).trans hfr
              · simpa [unwatchChildren, hsu, he'] using hfr

theorem unwatch_frame (fs : Fs) (o : Oracle) (p : String) (fi : FileInfo)
    (t : Trg) (q : String) (hq : q ≠ p)
    (hpfx : hasPfx q (p ++ "/") = false) :
    lkup (unwatch fs o p fi t).2.pthLkp q = lkup t.pthLkp q := by
  by_cases hd : fi.isDir
  · cases hrd : fs.readdir p with
    | error er => simp [unwatch, hd, hrd]
    | ok ls =>
        have hch : ∀ c ∈ ls, q ≠ pjoin p c.name :=
          fun c _ => ne_pjoin_of_not_hasPfx q p c.name hpfx
        have hfr1 := unwatchChildren_frame o p ls t q hch
        cases huc : unwatchChildren o p ls t with
        | mk er t1 =>
            rw [huc] at hfr1
            cases er with
            | none =>
                have hfr2 := singleunwatch_frame o p .dir t1 q hq
                simpa [unwatch, hd, hrd, huc] using hfr2.trans hfr1
            | some er' => simpa [unwatch, hd, hrd, huc] using hfr1
  · simpa [unwatch, hd] using singleunwatch_frame o p .dir t q hq

theorem singleunwatch_natReg_frame (o : Oracle) (p : String) (direct : mode)
    (t : Trg) (q : String) (h : q ≠ p) :
    (q ∈ (singleunwatch o p direct t).2.natReg ↔ q ∈ t.natReg) := by
  cases hl : lkup t.pthLkp p with
  | none => rw [singleunwatch_absent o p direct t hl]
  | some w0 =>
      by_cases hreg : p ∈ t.natReg
      · by_cases hz :
            (clearMasks w0 direct).eNonDir ||| (clearMasks w0 direct).eDir = 0
        · rw [singleunwatch_zero o p direct t w0 hl hreg hz]
          exact mem_eraseReg_of_ne _ _ _ h
        · cases ho : o.watchErr p with
          | none =>
              rw [singleunwatch_pos o p direct t w0 hl hreg ho hz]
              simp only [mem_insReg, mem_eraseReg_of_ne _ _ _ h]
              exact ⟨fun hor => hor.elim (fun he => absurd he h) id, Or.inr⟩
          | some er =>
              simp only [singleunwatch, hl, tnatUnwatch]
              rw [if_pos hreg]
              dsimp only
              rw [if_pos (show ((clearMasks w0 direct).eNonDir |||
                  (clearMasks w0 direct).eDir != 0) = true by simpa using hz)]
              rw [singlewatch_found_fail o p _ _ _ _ (clearMasks w0 direct) er
                (lkup_put_self t.pthLkp p _) ho]
              dsimp only
              by_cases he : er = Err.alreadyWatched <;>
                simp [he, mem_eraseReg_of_ne _ _ _ h]
      · simp only [singleunwatch, hl, tnatUnwatch]
        rw [if_neg hreg]

theorem singlewatch_ok_err (p : String) (e : Event) (direct : mode)
    (fi : FileInfo) (t : Trg) :
    (singlewatch okOracle p e direct fi t).1 = none ∨
      (singlewatch okOracle p e direct fi t).1 = some Err.alreadyWatched := by
  cases hl : lkup t.pthLkp p with
  | some w0 => rw [singlewatch_found okOracle p e direct fi t w0 hl rfl]; right; rfl
  | none => rw [singlewatch_fresh okOracle p e direct fi t hl rfl rfl]; left; rfl

theorem watchChildren_ok (p : String) (e : Event) (ls : List FileInfo)
    (t : Trg) : (watchChildren okOracle p e ls t).1 = none := by
  induction ls generalizing t with
  | nil => rfl
  | cons fi rest ih =>
      cases hsw : singlewatch okOracle (pjoin p fi.name) e .ndir fi t with
      | mk er t1 =>
          rcases singlewatch_ok_err (pjoin p fi.name) e .ndir fi t with h' | h' <;>
            rw [hsw] at h' <;> simp only at h'
          · subst h'
            simpa [watchChildren, hsw] using ih t1
          · subst h'
            simpa [watchChildren, hsw] using ih t1

theorem singleunwatch_ok_err (p : String) (direct : mode) (t : Trg)
    (h : Wf t) :
    (singleunwatch okOracle p direct t).1 = none ∨
      (singleunwatch okOracle p direct t).1 = some Err.notWatched := by
  cases hl : lkup t.pthLkp p with
  | none => rw [singleunwatch_absent okOracle p direct t hl]; right; rfl
  | some w0 =>
      have hreg := h.lkup_reg hl
      by_cases hz :
          (clearMasks w0 direct).eNonDir ||| (clearMasks w0 direct).eDir = 0
      · rw [singleunwatch_zero okOracle p direct t w0 hl hreg hz]; left; rfl
      · rw [singleunwatch_pos okOracle p direct t w0 hl hreg rfl hz]; left; rfl

theorem unwatchChildren_ok (p : String) (ls : List FileInfo) (t : Trg)
    (h : Wf t) : (unwatchChildren okOracle p ls t).1 = none := by
  induction ls generalizing t with
  | nil => rfl
  | cons fi rest ih =>
      cases hsu : singleunwatch okOracle (pjoin p fi.name) .ndir t with
      | mk er t1 =>
          have h1 : Wf t1 := by
            have := singleunwatch_wf (pjoin p fi.name) .ndir t h
            rwa [hsu] at this
          rcases singleunwatch_ok_err (pjoin p fi.name) .ndir t h with h' | h' <;>
            rw [hsu] at h' <;> simp only at h'
          · subst h'
            simpa [unwatchChildren, hsu] using ih t1 h1
          · subst h'
            simpa [unwatchChildren, hsu] using ih t1 h1

/-! ## Characterization of `decode` -/

theorem decode_step_testBit (o w acc : Event) (fn : Event × Event) (i : Nat) :
    ((if o &&& fn.1 != 0 then
        let e1 := if w &&& fn.1 != 0 then acc ||| fn.1 else acc
        if w &&& fn.2 != 0 then e1 ||| fn.2 else e1
      else acc).testBit i = true) ↔
      (acc.testBit i = true ∨
        (o &&& fn.1 ≠ 0 ∧
          ((w &&& fn.1 ≠ 0 ∧ fn.1.testBit i = true) ∨
           (w &&& fn.2 ≠ 0 ∧ fn.2.testBit i = true)))) := by
  by_cases h1 : o &&& fn.1 = 0
  · simp [h1]
  · by_cases h2 : w &&& fn.1 = 0
    · by_cases h3 : w &&& fn.2 = 0
      · simp [h1, h2, h3]
      · simp only [h1, h2, h3, bne_iff_ne, ne_eq, not_false_eq_true, if_true,
          if_false, not_true_eq_false, Nat.testBit_or, Bool.or_eq_true]
        tauto
    · by_cases h3 : w &&& fn.2 = 0
      · simp only [h1, h2, h3, bne_iff_ne, ne_eq, not_false_eq_true, if_true,
          if_false, not_true_eq_false, Nat.testBit_or, Bool.or_eq_true]
        tauto
      · simp only [h1, h2, h3, bne_iff_ne, ne_eq, not_false_eq_true, if_true,
          if_false, not_true_eq_false, Nat.testBit_or, Bool.or_eq_true]
        tauto

theorem decode_foldl_testBit (o w : Event) (l : List (Event × Event))
    (acc : Event) (i : Nat) :
    ((l.foldl
        (fun e fn =>
          if o &&& fn.1 != 0 then
            let e1 := if w &&& fn.1 != 0 then e ||| fn.1 else e
            if w &&& fn.2 != 0 then e1 ||| fn.2 else e1
          else e) acc).testBit i = true) ↔
      (acc.testBit i = true ∨ ∃ fn ∈ l, o &&& fn.1 ≠ 0 ∧
        ((w &&& fn.1 ≠ 0 ∧ fn.1.testBit i = true) ∨
         (w &&& fn.2 ≠ 0 ∧ fn.2.testBit i = true))) := by
  induction l generalizing acc with
  | nil => simp
  | cons fn rest ih =>
      rw [List.foldl_cons, ih, decode_step_testBit]
      constructor
      · rintro ((h | h) | ⟨fn', hfn', h⟩)
        · exact Or.inl h
        · exact Or.inr ⟨fn, List.mem_cons_self _ _, h⟩
        · exact Or.inr ⟨fn', List.mem_cons_of_mem _ hfn', h⟩
      · rintro (h | ⟨fn', hfn', h⟩)
        · exact Or.inl (Or.inl h)
        · rcases List.mem_cons.1 hfn' with rfl | hfn''
          · exact Or.inl (Or.inr h)
          · exact Or.inr ⟨fn', hfn'', h⟩

theorem decode_testBit (o w : Event) (i : Nat) :
    ((decode o w).testBit i = true) ↔
      ∃ fn ∈ nat2not, o &&& fn.1 ≠ 0 ∧
        ((w &&& fn.1 ≠ 0 ∧ fn.1.testBit i = true) ∨
         (w &&& fn.2 ≠ 0 ∧ fn.2.testBit i = true)) := by
  rw [decode, decode_foldl_testBit]
  simp

theorem land_single_zero (a : Nat) (j : Nat) (h : a.testBit j = false) :
    a &&& 2 ^ j = 0 :=
  land_eq_zero_of_testBit (fun i => by
    by_cases hij : i = j
    · subst hij
      exact Or.inl h
    · exact Or.inr (Nat.testBit_two_pow_of_ne (fun he => hij he.symm)))

theorem testBit_false_of_land_single (a : Nat) (j : Nat) (h : a &&& 2 ^ j = 0) :
    a.testBit j = false := by
  by_contra hb
  rw [Bool.not_eq_false] at hb
  exact absurd h (land_two_pow_ne_zero hb)

theorem decode_no_invent_bit (o w : Event) (j : Nat) (hj : j < 4)
    (hw : w.testBit j = false) : (decode o w).testBit j = false := by
  by_contra hb
  rw [Bool.not_eq_false, decode_testBit] at hb
  rcases hb with ⟨fn, hfn, ho, hcase⟩
  have hfn' : fn = (natCreate, Create) ∨ fn = (natRemove, Remove) ∨
      fn = (natWrite, Write) ∨ fn = (natRename, Rename) := by
    simpa [nat2not] using hfn
  interval_cases j <;>
    rcases hfn' with rfl | rfl | rfl | rfl <;>
    rcases hcase with ⟨hne, hbit⟩ | ⟨hne, hbit⟩ <;>
    first
      | exact absurd hbit (by decide)
      | (have hT := testBit_of_land_two_pow (i := 0) hne
         rw [hw] at hT
         cases hT)
      | (have hT := testBit_of_land_two_pow (i := 1) hne
         rw [hw] at hT
         cases hT)
      | (have hT := testBit_of_land_two_pow (i := 2) hne
         rw [hw] at hT
         cases hT)
      | (have hT := testBit_of_land_two_pow (i := 3) hne
         rw [hw] at hT
         cases hT)

theorem decode_kind_zero (o w : Event) (j : Nat) (hj : j < 4)
    (hw : w &&& 2 ^ j = 0) : decode o w &&& 2 ^ j = 0 :=
  land_single_zero _ j (decode_no_invent_bit o w j hj
    (testBit_false_of_land_single w j hw))

/-! ## Claim C10 -/

/-- C10: the old-mask argument of `Rewatch` has no influence on its
behaviour: two runs from the same state with different old masks perform
identical state changes and return the same result (the source binds the
argument `_` and never reads it). -/
theorem c10_rewatch_ignores_old_mask (fs : Fs) (o : Oracle) (p : String)
    (m1 m2 e : Event) (t : Trg) :
    Rewatch fs o p m1 e t = Rewatch fs o p m2 e t := rfl

/-! ## Claim C9 -/

/-- C9: for a path with no record whose stat succeeds, if the native
registration of the path itself fails with any error other than the
already-watched signal, `Watch` nevertheless reports success (`nil`) and the
path is left with no record in the watch table (in fact the state is
completely unchanged). -/
theorem c9_watch_swallows_registration_failure (fs : Fs) (o : Oracle)
    (p : String) (e : Event) (t : Trg) (fi : FileInfo) (er : Err)
    (hst : fs.stat p = some fi) (hl : lkup t.pthLkp p = none)
    (hn : o.newErr p = none) (hw : o.watchErr p = some er)
    (her : er ≠ Err.alreadyWatched) :
    (Watch fs o p e t).1 = none ∧
      lkup (Watch fs o p e t).2.pthLkp p = none := by
  have hsw := singlewatch_fresh_fail o p e .dir fi t er hl hn hw
  constructor
  · simp [Watch, hst, watch, hsw, her]
  · simp [Watch, hst, watch, hsw, her, hl]

/-- Witness for C9 at a concrete state: empty table, stat succeeds, native
registration fails with a generic error. -/
theorem c9_watch_swallows_registration_failure_witness :
    (Watch ⟨fun _ => some ⟨"f", false⟩, fun _ => Except.error Err.notExist⟩
        ⟨fun _ => none, fun _ => some Err.nativeFail⟩ "f" Create
        ⟨[], [], false⟩).1 = none ∧
      lkup (Watch ⟨fun _ => some ⟨"f", false⟩, fun _ => Except.error Err.notExist⟩
        ⟨fun _ => none, fun _ => some Err.nativeFail⟩ "f" Create
        ⟨[], [], false⟩).2.pthLkp "f" = none :=
  c9_watch_swallows_registration_failure
    ⟨fun _ => some ⟨"f", false⟩, fun _ => Except.error Err.notExist⟩
    ⟨fun _ => none, fun _ => some Err.nativeFail⟩ "f" Create
    ⟨[], [], false⟩ ⟨"f", false⟩ Err.nativeFail rfl rfl rfl rfl (by decide)

/-! ## Claim C7 -/

/-- C7: for a path that still exists on disk whose record has been removed
by a first successful `Unwatch`, a second `Unwatch` call fails with the
not-watched condition. -/
theorem c7_second_unwatch_not_watched (fs : Fs) (p : String) (t : Trg)
    (fi : FileInfo) (ls : List FileInfo)
    (hwf : Wf t) (hst : fs.stat p = some fi)
    (hl : lkup t.pthLkp p = none)
    (hrd : fi.isDir = true → fs.readdir p = Except.ok ls) :
    (Unwatch fs okOracle p t).1 = some Err.notWatched := by
  cases hd : fi.isDir with
  | false =>
      simp [Unwatch, hst, unwatch, hd, singleunwatch_absent okOracle p .dir t hl]
  | true =>
      have hrd' := hrd hd
      cases huc : unwatchChildren okOracle p ls t with
      | mk er t1 =>
          have hok := unwatchChildren_ok p ls t hwf
          rw [huc] at hok
          simp only at hok
          have hfr := unwatchChildren_frame okOracle p ls t p
            (fun c _ => (pjoin_ne p c.name).symm)
          rw [huc] at hfr
          simp only at hfr
          have hl1 : lkup t1.pthLkp p = none := hfr.trans hl
          subst hok
          simp [Unwatch, hst, unwatch, hd, hrd', huc,
            singleunwatch_absent okOracle p .dir t1 hl1]

/-- Witness for C7 at a concrete state: a table that watches `"a"` but not
`"b"`; unwatching `"b"` (which still stats) reports not-watched. -/
theorem c7_second_unwatch_not_watched_witness :
    (Unwatch ⟨fun _ => some ⟨"b", false⟩, fun _ => Except.error Err.notExist⟩
        okOracle "b"
        ⟨[("a", ⟨"a", ⟨"a", false⟩, Write, 0⟩)], ["a"], false⟩).1 =
      some Err.notWatched :=
  c7_second_unwatch_not_watched
    ⟨fun _ => some ⟨"b", false⟩, fun _ => Except.error Err.notExist⟩ "b"
    ⟨[("a", ⟨"a", ⟨"a", false⟩, Write, 0⟩)], ["a"], false⟩
    ⟨"b", false⟩ [] (by decide) rfl (by decide)
    (fun h => absurd h (by decide))

/-! ## Claim C4 -/

/-- C4: for a path that already has a record and still exists on disk,
calling `Watch` again returns success (the already-watched signal is not
surfaced), and afterwards the record's directory mask is the bitwise OR of
its previous mask and the newly requested one — merged, never replaced. -/
theorem c4_watch_merges_mask (fs : Fs) (p : String) (e : Event) (t : Trg)
    (fi : FileInfo) (w0 : watched) (ls : List FileInfo)
    (hst : fs.stat p = some fi)
    (hl : lkup t.pthLkp p = some w0)
    (hrd : fi.isDir = true → fs.readdir p = Except.ok ls) :
    (Watch fs okOracle p e t).1 = none ∧
      lkup (Watch fs okOracle p e t).2.pthLkp p =
        some { w0 with eDir := w0.eDir ||| e } := by
  have hsw := singlewatch_found okOracle p e .dir fi t w0 hl rfl
  cases hd : fi.isDir with
  | false =>
      constructor
      · simp [Watch, hst, watch, hsw, hd]
      · simp only [Watch, hst, watch, hsw, hd]
        simp only [if_pos rfl, Bool.false_eq_true, if_false]
        exact lkup_put_self t.pthLkp p _
  | true =>
      have hrd' := hrd hd
      constructor
      · simp only [Watch, hst, watch, hsw, hd, hrd']
        simp only [if_pos rfl, if_true]
        exact watchChildren_ok p e ls _
      · simp only [Watch, hst, watch, hsw, hd, hrd']
        simp only [if_pos rfl, if_true]
        rw [watchChildren_frame okOracle p e ls _ p
          (fun c _ => (pjoin_ne p c.name).symm)]
        exact lkup_put_self t.pthLkp p _

/-- Witness for C4 at a concrete state: `"f"` is watched with `Write`;
re-watching it with `Create` succeeds and stores `Write ||| Create`. -/
theorem c4_watch_merges_mask_witness :
    (Watch ⟨fun _ => some ⟨"f", false⟩, fun _ => Except.error Err.notExist⟩
        okOracle "f" Create
        ⟨[("f", ⟨"f", ⟨"f", false⟩, Write, 0⟩)], ["f"], false⟩).1 = none ∧
      lkup (Watch ⟨fun _ => some ⟨"f", false⟩, fun _ => Except.error Err.notExist⟩
        okOracle "f" Create
        ⟨[("f", ⟨"f", ⟨"f", false⟩, Write, 0⟩)], ["f"], false⟩).2.pthLkp "f" =
        some ⟨"f", ⟨"f", false⟩, Write ||| Create, 0⟩ :=
  c4_watch_merges_mask
    ⟨fun _ => some ⟨"f", false⟩, fun _ => Except.error Err.notExist⟩ "f" Create
    ⟨[("f", ⟨"f", ⟨"f", false⟩, Write, 0⟩)], ["f"], false⟩
    ⟨"f", false⟩ ⟨"f", ⟨"f", false⟩, Write, 0⟩ [] rfl rfl
    (fun h => absurd h (by decide))

/-! ## Claim C3 -/

/-- Concrete filesystem for C3: directory `"d"` (which stats fine) with one
child `"f"`. -/
def c3fs : Fs :=
  ⟨fun q => if q = "d" then some ⟨"d", true⟩ else none,
   fun q => if q = "d" then Except.ok [⟨"f", false⟩]
            else Except.error Err.notExist⟩

/-- Concrete state for C3: only the child `"d/f"` is watched (as a
non-directory child); the directory `"d"` itself has no record. -/
def c3trg : Trg := ⟨[("d/f", ⟨"d/f", ⟨"f", false⟩, 0, Write⟩)], ["d/f"], false⟩

/-- Counterexample to C3 as stated: for path `"d"` (whose stat succeeds, in a
well-formed state) the intermediate unwatch step of `Rewatch` fails with the
not-watched condition, yet the watch table is NOT left unchanged — the child
record `"d/f"` was already torn down before the failure was detected. -/
theorem c3_counterexample :
    Wf c3trg ∧
    c3fs.stat "d" = some ⟨"d", true⟩ ∧
    (unwatch c3fs okOracle "d" ⟨"d", true⟩ c3trg).1 = some Err.notWatched ∧
    (Rewatch c3fs okOracle "d" Write Write c3trg).2.pthLkp ≠ c3trg.pthLkp := by
  decide

/-- C3 amended: if the intermediate unwatch step of `Rewatch` fails, the
re-watch step is not performed and `Rewatch` returns exactly the state the
failed unwatch left behind; for a non-directory path (with native calls
following the trigger contract) that state is the unchanged prior state, but
for a directory the partial child-unwatch mutations are retained. -/
theorem c3_amended :
    (∀ (fs : Fs) (o : Oracle) (p : String) (m e : Event) (t : Trg)
        (fi : FileInfo) (er : Err),
      fs.stat p = some fi → (unwatch fs o p fi t).1 = some er →
      Rewatch fs o p m e t = (none, (unwatch fs o p fi t).2)) ∧
    (∀ (fs : Fs) (p : String) (m e : Event) (t : Trg) (fi : FileInfo)
        (er : Err),
      Wf t → fs.stat p = some fi → fi.isDir = false →
      (unwatch fs okOracle p fi t).1 = some er →
      (Rewatch fs okOracle p m e t).2 = t) := by
  constructor
  · intro fs o p m e t fi er hst hu
    cases huw : unwatch fs o p fi t with
    | mk er1 t1 =>
        rw [huw] at hu
        simp only at hu
        subst hu
        simp [Rewatch, hst, huw]
  · intro fs p m e t fi er hwf hst hd hu
    have hueq : unwatch fs okOracle p fi t = singleunwatch okOracle p .dir t := by
      simp [unwatch, hd]
    rw [hueq] at hu
    cases hl : lkup t.pthLkp p with
    | some w0 =>
        exfalso
        have hreg := hwf.lkup_reg hl
        by_cases hz :
            (clearMasks w0 .dir).eNonDir ||| (clearMasks w0 .dir).eDir = 0
        · rw [singleunwatch_zero okOracle p .dir t w0 hl hreg hz] at hu
          simp at hu
        · rw [singleunwatch_pos okOracle p .dir t w0 hl hreg rfl hz] at hu
          simp at hu
    | none =>
        have habs := singleunwatch_absent okOracle p .dir t hl
        simp [Rewatch, hst, hueq, habs]

/-- Witness for the amended C3: the failing-directory run returns the
post-unwatch state with no re-watch, and a failing non-directory run leaves
the empty state unchanged. -/
theorem c3_amended_witness :
    Rewatch c3fs okOracle "d" Write Write c3trg =
      (none, (unwatch c3fs okOracle "d" ⟨"d", true⟩ c3trg).2) ∧
    (Rewatch ⟨fun _ => some ⟨"f", false⟩, fun _ => Except.error Err.notExist⟩
        okOracle "f" Write Write ⟨[], [], false⟩).2 = ⟨[], [], false⟩ :=
  ⟨c3_amended.1 c3fs okOracle "d" Write Write c3trg ⟨"d", true⟩
      Err.notWatched rfl (by decide),
   c3_amended.2 ⟨fun _ => some ⟨"f", false⟩, fun _ => Except.error Err.notExist⟩
      "f" Write Write ⟨[], [], false⟩ ⟨"f", false⟩ Err.notWatched
      (by decide) rfl rfl (by decide)⟩

/-! ## Claim C5 -/

theorem rescan_cons_found (w : watched) (c : FileInfo) (rest : List FileInfo)
    (t : Trg) (wq : watched)
    (hl : lkup t.pthLkp (pjoin w.p c.name) = some wq) :
    rescan okOracle w (c :: rest) t =
      rescan okOracle w rest
        { t with
            pthLkp := put t.pthLkp (pjoin w.p c.name) (setMasks wq .ndir w.eDir),
            natReg := insReg t.natReg (pjoin w.p c.name) } := by
  have hsw := singlewatch_found okOracle (pjoin w.p c.name) w.eDir .ndir c t wq hl rfl
  simp [rescan, hsw]

theorem rescan_cons_fresh (w : watched) (c : FileInfo) (rest : List FileInfo)
    (t : Trg) (hC : w.eDir &&& Create ≠ 0)
    (hl : lkup t.pthLkp (pjoin w.p c.name) = none) :
    rescan okOracle w (c :: rest) t =
      (⟨pjoin w.p c.name, Create, c.isDir⟩ ::
        (rescan okOracle w rest
          { t with
              pthLkp := put t.pthLkp (pjoin w.p c.name)
                (setMasks ⟨pjoin w.p c.name, c, 0, 0⟩ .ndir w.eDir),
              natReg := insReg t.natReg (pjoin w.p c.name) }).1,
       (rescan okOracle w rest
          { t with
              pthLkp := put t.pthLkp (pjoin w.p c.name)
                (setMasks ⟨pjoin w.p c.name, c, 0, 0⟩ .ndir w.eDir),
              natReg := insReg t.natReg (pjoin w.p c.name) }).2) := by
  have hsw := singlewatch_fresh okOracle (pjoin w.p c.name) w.eDir .ndir c t hl rfl rfl
  simp [rescan, hsw, hC]

theorem rescan_spec (w : watched) (ls : List FileInfo) (t : Trg)
    (hnd : (ls.map (fun c => pjoin w.p c.name)).Nodup)
    (hC : w.eDir &&& Create ≠ 0) :
    (rescan okOracle w ls t).1 =
      (ls.filter (fun c => (lkup t.pthLkp (pjoin w.p c.name)).isNone)).map
        (fun c => ⟨pjoin w.p c.name, Create, c.isDir⟩) ∧
    (∀ c ∈ ls,
      (lkup (rescan okOracle w ls t).2.pthLkp (pjoin w.p c.name)).isSome
        = true) ∧
    (∀ q, (∀ c ∈ ls, q ≠ pjoin w.p c.name) →
      lkup (rescan okOracle w ls t).2.pthLkp q = lkup t.pthLkp q) := by
  induction ls generalizing t with
  | nil => exact ⟨rfl, by simp, fun q _ => rfl⟩
  | cons c rest ih =>
      have hnds :
          (pjoin w.p c.name :: rest.map (fun x => pjoin w.p x.name)).Nodup := by
        simpa using hnd
      have hnd' : (rest.map (fun x => pjoin w.p x.name)).Nodup :=
        (List.nodup_cons.1 hnds).2
      have hqrest : ∀ c' ∈ rest, pjoin w.p c.name ≠ pjoin w.p c'.name := by
        intro c' hc' he
        exact (List.nodup_cons.1 hnds).1 (List.mem_map.2 ⟨c', hc', he.symm⟩)
      have hnd2 : (rest.map (fun c => pjoin w.p c.name)).Nodup := hnd'
      cases hl : lkup t.pthLkp (pjoin w.p c.name) with
      | some wq =>
          rw [rescan_cons_found w c rest t wq hl]
          rcases ih { t with
              pthLkp := put t.pthLkp (pjoin w.p c.name) (setMasks wq .ndir w.eDir),
              natReg := insReg t.natReg (pjoin w.p c.name) } hnd2 with
            ⟨ih1, ih2, ih3⟩
          have hfe := List.filter_congr
            (fun (c' : FileInfo) (hc' : c' ∈ rest) =>
              show (lkup (put t.pthLkp (pjoin w.p c.name)
                    (setMasks wq .ndir w.eDir)) (pjoin w.p c'.name)).isNone =
                  (lkup t.pthLkp (pjoin w.p c'.name)).isNone by
                rw [lkup_put_ne _ _ _ _ ((hqrest c' hc').symm)])
          refine ⟨?_, ?_, ?_⟩
          · rw [ih1]
            dsimp only
            rw [hfe]
            simp [List.filter_cons, hl]
          · intro c' hc'
            rcases List.mem_cons.1 hc' with rfl | hc''
            · rw [ih3 (pjoin w.p c'.name) (fun x hx => hqrest x hx)]
              show (lkup (put t.pthLkp (pjoin w.p c'.name) _) _).isSome = true
              rw [lkup_put_self]
              rfl
            · exact ih2 c' hc''
          · intro q hq
            rw [ih3 q (fun x hx => hq x (List.mem_cons_of_mem _ hx))]
            exact lkup_put_ne _ _ _ _ (hq c (List.mem_cons_self _ _))
      | none =>
          rw [rescan_cons_fresh w c rest t hC hl]
          rcases ih { t with
              pthLkp := put t.pthLkp (pjoin w.p c.name)
                (setMasks ⟨pjoin w.p c.name, c, 0, 0⟩ .ndir w.eDir),
              natReg := insReg t.natReg (pjoin w.p c.name) } hnd2 with
            ⟨ih1, ih2, ih3⟩
          have hfe := List.filter_congr
            (fun (c' : FileInfo) (hc' : c' ∈ rest) =>
              show (lkup (put t.pthLkp (pjoin w.p c.name)
                    (setMasks ⟨pjoin w.p c.name, c, 0, 0⟩ .ndir w.eDir))
                    (pjoin w.p c'.name)).isNone =
                  (lkup t.pthLkp (pjoin w.p c'.name)).isNone by
                rw [lkup_put_ne _ _ _ _ ((hqrest c' hc').symm)])
          refine ⟨?_, ?_, ?_⟩
          · show _ :: _ = _
            rw [ih1]
            dsimp only
            rw [hfe]
            simp [List.filter_cons, hl]
          · intro c' hc'
            rcases List.mem_cons.1 hc' with rfl | hc''
            · show (lkup (rescan okOracle w rest _).2.pthLkp _).isSome = true
              rw [ih3 (pjoin w.p c'.name) (fun x hx => hqrest x hx)]
              show (lkup (put t.pthLkp (pjoin w.p c'.name) _) _).isSome = true
              rw [lkup_put_self]
              rfl
            · exact ih2 c' hc''
          · intro q hq
            show lkup (rescan okOracle w rest _).2.pthLkp q = _
            rw [ih3 q (fun x hx => hq x (List.mem_cons_of_mem _ hx))]
            exact lkup_put_ne _ _ _ _ (hq c (List.mem_cons_self _ _))

/-- C5: during the rescan triggered by a native contents-changed (Write)
notification on a watched directory whose mask requested Create, the emitted
events are exactly one Create per re-scanned child that had no record yet
(children already in the table yield no event), and afterwards every listed
child is registered in the table — so a later unrelated write produces no
duplicate Create. -/
theorem c5_write_rescan_creates_once (fs : Fs) (p : String) (t : Trg)
    (w : watched) (ls : List FileInfo)
    (hwf : Wf t) (hl : lkup t.pthLkp p = some w) (hd : w.fi.isDir = true)
    (hC : w.eDir &&& Create ≠ 0)
    (hrd : fs.readdir p = Except.ok ls)
    (hnd : (ls.map (fun c => pjoin p c.name)).Nodup) :
    (process fs okOracle p natWrite t).1 =
      (ls.filter (fun c => (lkup t.pthLkp (pjoin p c.name)).isNone)).map
        (fun c => ⟨pjoin p c.name, Create, c.isDir⟩) ∧
    (∀ c ∈ ls,
      (lkup (process fs okOracle p natWrite t).2.pthLkp
        (pjoin p c.name)).isSome = true) := by
  have hp : w.p = p := hwf.lkup_path hl
  have hw0 : ¬ (natWrite &&& not2nat Write = 0) := by decide
  have hrr : natWrite &&& (not2nat Rename ||| not2nat Remove) = 0 := by decide
  have hrr2 : natWrite &&& (not2nat Remove ||| not2nat Rename) = 0 := by decide
  have hrd' : fs.readdir w.p = Except.ok ls := by rw [hp]; exact hrd
  have hpe : process fs okOracle p natWrite t =
      rescan okOracle w ls (refreshStep fs okOracle w natWrite t) := by
    simp [process, hl, hd, hw0, hrr, hrr2, dir, hrd']
  have hnd' : (ls.map (fun c => pjoin w.p c.name)).Nodup := by
    rw [hp]
    exact hnd
  rcases rescan_spec w ls (refreshStep fs okOracle w natWrite t) hnd' hC with
    ⟨h1s, h2s, h3s⟩
  rw [refreshStep_pthLkp] at h1s
  rw [hp] at h1s h2s
  exact ⟨by rw [hpe, h1s], by rw [hpe]; exact h2s⟩

/-- Witness for C5 at a concrete state: directory `"d"` watched with
`Create`; a native write triggers a rescan that finds the fresh child
`"a"`, emitting exactly one Create for `"d/a"` and registering it. -/
theorem c5_write_rescan_creates_once_witness :
    (process ⟨fun q => if q = "d" then some ⟨"d", true⟩ else none,
        fun q => if q = "d" then Except.ok [⟨"a", false⟩]
                 else Except.error Err.notExist⟩
      okOracle "d" natWrite
      ⟨[("d", ⟨"d", ⟨"d", true⟩, Create, 0⟩)], ["d"], false⟩).1 =
      ([(⟨"a", false⟩ : FileInfo)].filter (fun c =>
        (lkup [("d", ⟨"d", ⟨"d", true⟩, Create, 0⟩)] (pjoin "d" c.name)).isNone)).map
        (fun c => ⟨pjoin "d" c.name, Create, c.isDir⟩) ∧
    (lkup (process ⟨fun q => if q = "d" then some ⟨"d", true⟩ else none,
        fun q => if q = "d" then Except.ok [⟨"a", false⟩]
                 else Except.error Err.notExist⟩
      okOracle "d" natWrite
      ⟨[("d", ⟨"d", ⟨"d", true⟩, Create, 0⟩)], ["d"], false⟩).2.pthLkp
      (pjoin "d" (⟨"a", false⟩ : FileInfo).name)).isSome = true :=
  ⟨(c5_write_rescan_creates_once
      ⟨fun q => if q = "d" then some ⟨"d", true⟩ else none,
       fun q => if q = "d" then Except.ok [⟨"a", false⟩]
                else Except.error Err.notExist⟩
      "d" ⟨[("d", ⟨"d", ⟨"d", true⟩, Create, 0⟩)], ["d"], false⟩
      ⟨"d", ⟨"d", true⟩, Create, 0⟩ [⟨"a", false⟩]
      (by decide) (by decide) rfl (by decide) rfl (by decide)).1,
   (c5_write_rescan_creates_once
      ⟨fun q => if q = "d" then some ⟨"d", true⟩ else none,
       fun q => if q = "d" then Except.ok [⟨"a", false⟩]
                else Except.error Err.notExist⟩
      "d" ⟨[("d", ⟨"d", ⟨"d", true⟩, Create, 0⟩)], ["d"], false⟩
      ⟨"d", ⟨"d", true⟩, Create, 0⟩ [⟨"a", false⟩]
      (by decide) (by decide) rfl (by decide) rfl (by decide)).2
     ⟨"a", false⟩ (List.mem_singleton.2 rfl)⟩

/-! ## Claim C1 -/

theorem lkup_eq_none_iff (m : List (String × watched)) (q : String) :
    lkup m q = none ↔ q ∉ m.map Prod.fst := by
  induction m with
  | nil => simp [lkup]
  | cons hd tl ih =>
      by_cases h : hd.1 = q
      · simp [lkup, h]
      · rw [lkup, if_neg h, ih, List.map_cons]
        simp only [List.mem_cons]
        constructor
        · intro hn hor
          rcases hor with he | hm
          · exact h he.symm
          · exact hn hm
        · intro hn hm
          exact hn (Or.inr hm)

theorem descendScan_cons_pfx (w : watched) (e : Event) (k : String)
    (rest : List String) (t : Trg) (wk : watched)
    (hpfx : hasPfx k (w.p ++ "/") = true)
    (hlk : lkup t.pthLkp k = some wk) (hreg : k ∈ t.natReg)
    (hcond : (w.eDir ||| w.eNonDir) &&& (not2nat Rename ||| Rename) ≠ 0) :
    descendScan okOracle w e (k :: rest) t =
      (⟨k, andNot (andNot ((w.eDir ||| w.eNonDir) &&& e) Write) (not2nat Write),
          w.fi.isDir⟩ ::
        (descendScan okOracle w e rest (tdel k t)).1,
       (descendScan okOracle w e rest (tdel k t)).2) := by
  have hsu := singleunwatch_zero okOracle k .both t wk hlk hreg (by simp [clearMasks])
  simp [descendScan, hpfx, hsu, hcond, tdel]

theorem descendScan_cons_nopfx (w : watched) (e : Event) (k : String)
    (rest : List String) (t : Trg)
    (hpfx : hasPfx k (w.p ++ "/") = false) :
    descendScan okOracle w e (k :: rest) t =
      descendScan okOracle w e rest t := by
  simp [descendScan, hpfx]

theorem descendScan_spec (w : watched) (e : Event) (ks : List String) (t : Trg)
    (hwf : Wf t) (hnd : ks.Nodup)
    (hin : ∀ q ∈ ks, lkup t.pthLkp q ≠ none)
    (hcond : (w.eDir ||| w.eNonDir) &&& (not2nat Rename ||| Rename) ≠ 0) :
    (descendScan okOracle w e ks t).1 =
      (ks.filter (fun q => hasPfx q (w.p ++ "/"))).map
        (fun q => ⟨q, andNot (andNot ((w.eDir ||| w.eNonDir) &&& e) Write)
          (not2nat Write), w.fi.isDir⟩) ∧
    (∀ q ∈ ks, hasPfx q (w.p ++ "/") = true →
      lkup (descendScan okOracle w e ks t).2.pthLkp q = none) ∧
    (∀ q, (q ∈ ks → hasPfx q (w.p ++ "/") = false) →
      lkup (descendScan okOracle w e ks t).2.pthLkp q = lkup t.pthLkp q) := by
  induction ks generalizing t with
  | nil => exact ⟨rfl, by simp, fun q _ => rfl⟩
  | cons k rest ih =>
      rcases List.nodup_cons.1 hnd with ⟨hknr, hndr⟩
      by_cases hpfx : hasPfx k (w.p ++ "/") = true
      · cases hlk : lkup t.pthLkp k with
        | none => exact absurd hlk (hin k (List.mem_cons_self _ _))
        | some wk =>
            have hreg := hwf.lkup_reg hlk
            rw [descendScan_cons_pfx w e k rest t wk hpfx hlk hreg hcond]
            have hwfT : Wf (tdel k t) := tdel_wf k t hwf
            have hinT : ∀ q ∈ rest, lkup (tdel k t).pthLkp q ≠ none := by
              intro q hq
              show lkup (delk t.pthLkp k) q ≠ none
              rw [lkup_delk_ne _ _ _ (fun he => hknr (by rw [← he]; exact hq))]
              exact hin q (List.mem_cons_of_mem _ hq)
            rcases ih (tdel k t) hwfT hndr hinT with ⟨ih1, ih2, ih3⟩
            refine ⟨?_, ?_, ?_⟩
            · rw [List.filter_cons, if_pos (by simpa using hpfx), List.map_cons]
              exact congrArg _ ih1
            · intro q hq hq2
              rcases List.mem_cons.1 hq with rfl | hq'
              · rw [ih3 q (fun hk => absurd hk hknr)]
                exact lkup_delk_self t.pthLkp q
              · exact ih2 q hq' hq2
            · intro q himp
              by_cases hqk : q = k
              · subst hqk
                exact absurd hpfx (by simp [himp (List.mem_cons_self _ _)])
              · rw [ih3 q (fun hk => himp (List.mem_cons_of_mem _ hk))]
                exact lkup_delk_ne _ _ _ hqk
      · have hpfx' : hasPfx k (w.p ++ "/") = false := by
          simpa using hpfx
        rw [descendScan_cons_nopfx w e k rest t hpfx']
        rcases ih t hwf hndr
            (fun q hq => hin q (List.mem_cons_of_mem _ hq)) with ⟨ih1, ih2, ih3⟩
        refine ⟨?_, ?_, ?_⟩
        · rw [List.filter_cons, if_neg (by simp [hpfx'])]
          exact ih1
        · intro q hq hq2
          rcases List.mem_cons.1 hq with rfl | hq'
          · rw [hpfx'] at hq2
            cases hq2
          · exact ih2 q hq' hq2
        · intro q himp
          exact ih3 q (fun hk => himp (List.mem_cons_of_mem _ hk))

/-- C1 amended: when a watched directory's native notification is the rename
flag and the directory's own combined mask requested Rename, the pipeline
emits one Rename event for the directory itself followed by exactly one
Rename event for every path in the table that is a descendant of the
directory — the per-descendant filter is the *renamed directory's* requested
mask, not the descendant's own — and afterwards the directory's record and
every descendant's record are removed while all other records are
untouched. -/
theorem c1_amended (fs : Fs) (t : Trg) (p : String) (w : watched)
    (hwf : Wf t) (hl : lkup t.pthLkp p = some w) (hd : w.fi.isDir = true)
    (hrn : (w.eDir ||| w.eNonDir) &&& Rename ≠ 0) :
    ((process fs okOracle p (not2nat Rename) t).1 =
      ⟨p, andNot (andNot (decode (not2nat Rename) (w.eDir ||| w.eNonDir)) Write)
          (not2nat Write), true⟩ ::
        ((t.pthLkp.map Prod.fst).filter (fun q => hasPfx q (p ++ "/"))).map
          (fun q => ⟨q, andNot (andNot ((w.eDir ||| w.eNonDir) &&&
              decode (not2nat Rename) (w.eDir ||| w.eNonDir)) Write)
              (not2nat Write), w.fi.isDir⟩)) ∧
    (andNot (andNot (decode (not2nat Rename) (w.eDir ||| w.eNonDir)) Write)
        (not2nat Write)) &&& Rename ≠ 0 ∧
    (andNot (andNot ((w.eDir ||| w.eNonDir) &&&
        decode (not2nat Rename) (w.eDir ||| w.eNonDir)) Write)
        (not2nat Write)) &&& Rename ≠ 0 ∧
    (∀ q, q = p ∨ hasPfx q (p ++ "/") = true →
      lkup (process fs okOracle p (not2nat Rename) t).2.pthLkp q = none) ∧
    (∀ q, q ≠ p → hasPfx q (p ++ "/") = false →
      lkup (process fs okOracle p (not2nat Rename) t).2.pthLkp q =
        lkup t.pthLkp q) := by
  have hp : w.p = p := hwf.lkup_path hl
  subst hp
  have hA : ¬ (not2nat Rename &&& (not2nat Remove ||| not2nat Rename) = 0) := by
    decide
  have hB : not2nat Rename &&& (not2nat Rename ||| not2nat Remove) ≠ 0 := by
    decide
  have hC0 : ¬ (not2nat Rename = 0) := by decide
  have hCc : not2nat Rename &&& not2nat Rename ≠ 0 := by decide
  have hm3 : (w.eDir ||| w.eNonDir).testBit 3 = true :=
    testBit_of_land_two_pow (i := 3) hrn
  have he3 : (decode (not2nat Rename) (w.eDir ||| w.eNonDir)).testBit 3 = true :=
    (decode_testBit _ _ 3).2
      ⟨(natRename, Rename), by decide, by decide, Or.inr ⟨hrn, by decide⟩⟩
  have he0 : decode (not2nat Rename) (w.eDir ||| w.eNonDir) ≠ 0 :=
    ne_zero_of_testBit 3 he3
  have hcond : (w.eDir ||| w.eNonDir) &&& (not2nat Rename ||| Rename) ≠ 0 := by
    refine ne_zero_of_testBit 3 ?_
    rw [Nat.testBit_and, hm3]
    decide
  have hm0 : (andNot (andNot (decode (not2nat Rename) (w.eDir ||| w.eNonDir))
      Write) (not2nat Write)).testBit 3 = true := by
    rw [andNot_testBit, andNot_testBit, he3]
    decide
  have hmD : (andNot (andNot ((w.eDir ||| w.eNonDir) &&&
      decode (not2nat Rename) (w.eDir ||| w.eNonDir)) Write)
      (not2nat Write)).testBit 3 = true := by
    rw [andNot_testBit, andNot_testBit, Nat.testBit_and, hm3, he3]
    decide
  have hrefresh : refreshStep fs okOracle w (not2nat Rename) t = t := by
    simp [refreshStep, hA]
  have hpe : process fs okOracle w.p (not2nat Rename) t =
      (⟨w.p, andNot (andNot (decode (not2nat Rename) (w.eDir ||| w.eNonDir))
          Write) (not2nat Write), true⟩ ::
        (descendScan okOracle w (decode (not2nat Rename) (w.eDir ||| w.eNonDir))
          (t.pthLkp.map Prod.fst) t).1,
       tdel w.p (tdel w.p
        (descendScan okOracle w (decode (not2nat Rename) (w.eDir ||| w.eNonDir))
          (t.pthLkp.map Prod.fst) t).2)) := by
    simp [process, hl, hrefresh, he0, hd, hA, dir, hB, hC0, hCc]
  have hin : ∀ q ∈ t.pthLkp.map Prod.fst, lkup t.pthLkp q ≠ none :=
    fun q hq hn => ((lkup_eq_none_iff t.pthLkp q).1 hn) hq
  rcases descendScan_spec w (decode (not2nat Rename) (w.eDir ||| w.eNonDir))
      (t.pthLkp.map Prod.fst) t hwf hwf.1 hin hcond with ⟨hds1, hds2, hds3⟩
  refine ⟨?_, land_two_pow_ne_zero (i := 3) hm0,
    land_two_pow_ne_zero (i := 3) hmD, ?_, ?_⟩
  · rw [hpe]
    rw [hds1]
  · intro q hq
    rw [hpe]
    rcases hq with rfl | hq2
    · exact lkup_delk_self _ _
    · show lkup (delk (delk _ w.p) w.p) q = none
      have hqp : q ≠ w.p := by
          intro he
          rw [he, hasPfx_self] at hq2
          cases hq2
      rw [lkup_delk_ne _ _ _ hqp, lkup_delk_ne _ _ _ hqp]
      by_cases hqin : q ∈ t.pthLkp.map Prod.fst
      · exact hds2 q hqin hq2
      · rw [hds3 q (fun hk => absurd hk hqin)]
        exact (lkup_eq_none_iff t.pthLkp q).2 hqin
  · intro q hq hq2
    rw [hpe]
    show lkup (delk (delk _ w.p) w.p) q = lkup t.pthLkp q
    rw [lkup_delk_ne _ _ _ hq, lkup_delk_ne _ _ _ hq]
    exact hds3 q (fun _ => hq2)

/-- Concrete filesystem for the C1 counterexample (irrelevant to the rename
branch: nothing stats and no directory lists). -/
def c1fs : Fs := ⟨fun _ => none, fun _ => Except.error Err.notExist⟩

/-- Concrete state for the C1 counterexample: directory `"d"` watched with
`Rename`, its child `"d/f"` watched with `Write` only. -/
def c1trg : Trg :=
  ⟨[("d", ⟨"d", ⟨"d", true⟩, Rename, 0⟩),
    ("d/f", ⟨"d/f", ⟨"f", false⟩, Write, 0⟩)],
   ["d", "d/f"], false⟩

/-- Counterexample to C1 as stated: the descendant `"d/f"` requested only
`Write` — its own mask does not include `Rename` — yet processing the native
rename of `"d"` synthesizes a Rename event for `"d/f"` (the code filters on
the renamed directory's mask, not the descendant's).  This falsifies the
claim's "if and only if that descendant's own requested mask included
Rename". -/
theorem c1_counterexample :
    Wf c1trg ∧
    lkup c1trg.pthLkp "d/f" = some ⟨"d/f", ⟨"f", false⟩, Write, 0⟩ ∧
    (Write : Event) &&& Rename = 0 ∧
    (process c1fs okOracle "d" (not2nat Rename) c1trg).1 =
      [⟨"d", Rename, true⟩, ⟨"d/f", Rename, true⟩] := by
  decide

/-- Witness for the amended C1 at the concrete renamed-directory state:
the event list is the directory's Rename event followed by one event per
tabled descendant, and the descendant record `"d/f"` is removed. -/
theorem c1_amended_witness :
    ((process c1fs okOracle "d" (not2nat Rename) c1trg).1 =
      ⟨"d", andNot (andNot (decode (not2nat Rename) (Rename ||| 0)) Write)
          (not2nat Write), true⟩ ::
        ((c1trg.pthLkp.map Prod.fst).filter (fun q => hasPfx q ("d" ++ "/"))).map
          (fun q => ⟨q, andNot (andNot ((Rename ||| 0) &&&
              decode (not2nat Rename) (Rename ||| 0)) Write)
              (not2nat Write), (⟨"d", true⟩ : FileInfo).isDir⟩)) ∧
    lkup (process c1fs okOracle "d" (not2nat Rename) c1trg).2.pthLkp "d/f" =
      none :=
  ⟨(c1_amended c1fs c1trg "d" ⟨"d", ⟨"d", true⟩, Rename, 0⟩
      (by decide) rfl rfl (by decide)).1,
   (c1_amended c1fs c1trg "d" ⟨"d", ⟨"d", true⟩, Rename, 0⟩
      (by decide) rfl rfl (by decide)).2.2.2.1 "d/f" (Or.inr (by decide))⟩

/-! ## Claim C2 -/

/-- Every event synthesized by the write-branch rescan carries only a kind
that the parent directory's `eDir` requested: Remove for a vanished child
only when Remove was requested, Create for a fresh child only when Create
was requested. -/
theorem rescan_kinds (o : Oracle) (w : watched) (ls : List FileInfo) (t : Trg) :
    ∀ ev ∈ (rescan o w ls t).1,
      (ev.e = Remove ∧ w.eDir &&& Remove ≠ 0) ∨
      (ev.e = Create ∧ w.eDir &&& Create ≠ 0) := by
  induction ls generalizing t with
  | nil =>
      intro ev hev
      simp [rescan] at hev
  | cons c rest ih =>
      intro ev hev
      cases hsw : singlewatch o (pjoin w.p c.name) w.eDir .ndir c t with
      | mk er t1 =>
          cases er with
          | some er' =>
              simp only [rescan, hsw] at hev
              rcases List.mem_append.1 hev with hev1 | hev2
              · by_cases hne : er' = Err.notExist
                · by_cases hr : w.eDir &&& Remove = 0
                  · simp [hne, hr] at hev1
                  · simp only [hne, if_pos rfl, bne_iff_ne, ne_eq, hr,
                      not_false_eq_true, if_true, List.mem_singleton] at hev1
                    subst hev1
                    exact Or.inl ⟨rfl, hr⟩
                · simp [hne] at hev1
              · exact ih t1 ev hev2
          | none =>
              simp only [rescan, hsw] at hev
              rcases List.mem_append.1 hev with hev1 | hev2
              · by_cases hc : w.eDir &&& Create = 0
                · simp [hc] at hev1
                · simp only [bne_iff_ne, ne_eq, hc, not_false_eq_true, if_true,
                    List.mem_singleton] at hev1
                  subst hev1
                  exact Or.inr ⟨rfl, hc⟩
              · exact ih t1 ev hev2

/-- Concrete filesystem for the C2 counterexample: `"d"` is a directory
containing the directory `"sub"`, which contains the file `"file"`. -/
def c2fs : Fs :=
  ⟨fun q => if q = "d" then some ⟨"d", true⟩
            else if q = "d/sub" then some ⟨"sub", true⟩
            else if q = "d/sub/file" then some ⟨"file", false⟩
            else none,
   fun q => if q = "d" then Except.ok [⟨"sub", true⟩]
            else if q = "d/sub" then Except.ok [⟨"file", false⟩]
            else Except.error Err.notExist⟩

/-- Counterexample to C2 as stated: starting from the empty table, the only
requests ever made are `Watch "d/sub/file" Write` and `Watch "d" Rename`
(whose directory expansion covers only the immediate child `"d/sub"`), so no
caller ever requested Rename for the deep descendant `"d/sub/file"` — its
record holds `Write` only — yet processing the native rename of `"d"`
synthesizes a Rename event for `"d/sub/file"`. -/
theorem c2_counterexample :
    lkup (Watch c2fs okOracle "d" Rename
        (Watch c2fs okOracle "d/sub/file" Write ⟨[], [], false⟩).2).2.pthLkp
        "d/sub/file" = some ⟨"d/sub/file", ⟨"file", false⟩, Write, 0⟩ ∧
    (Write : Event) &&& Rename = 0 ∧
    ((process c2fs okOracle "d" (not2nat Rename)
        (Watch c2fs okOracle "d" Rename
          (Watch c2fs okOracle "d/sub/file" Write ⟨[], [], false⟩).2).2).1.filter
      (fun ev => ev.p = "d/sub/file")) = [⟨"d/sub/file", Rename, true⟩] := by
  decide

/-- C2 amended: decode never includes a portable kind the watch did not
request, and write-rescan synthesis only emits kinds the parent directory's
mask requested; the rename-propagation synthesis however filters by the
renamed directory's mask, not the descendant's own, and can emit Rename for
a deep descendant that never requested it (see the counterexample). -/
theorem c2_amended :
    (∀ o w : Event,
      (w &&& Create = 0 → decode o w &&& Create = 0) ∧
      (w &&& Remove = 0 → decode o w &&& Remove = 0) ∧
      (w &&& Write = 0 → decode o w &&& Write = 0) ∧
      (w &&& Rename = 0 → decode o w &&& Rename = 0)) ∧
    (∀ (o : Oracle) (w : watched) (ls : List FileInfo) (t : Trg),
      ∀ ev ∈ (rescan o w ls t).1,
        (ev.e = Remove ∧ w.eDir &&& Remove ≠ 0) ∨
        (ev.e = Create ∧ w.eDir &&& Create ≠ 0)) := by
  constructor
  · intro o w
    exact ⟨fun hw => decode_kind_zero o w 0 (by decide) hw,
           fun hw => decode_kind_zero o w 1 (by decide) hw,
           fun hw => decode_kind_zero o w 2 (by decide) hw,
           fun hw => decode_kind_zero o w 3 (by decide) hw⟩
  · exact rescan_kinds

/-- Witness for the amended C2: a decode of the rename flag against a watch
that requested only Write yields no Rename bit, and a concrete rescan event
is a Create that the parent requested. -/
theorem c2_amended_witness :
    decode (not2nat Rename) Write &&& Rename = 0 ∧
    (((⟨pjoin "d" "a", Create, false⟩ : event).e = Remove ∧
        (⟨"d", ⟨"d", true⟩, Create, 0⟩ : watched).eDir &&& Remove ≠ 0) ∨
     ((⟨pjoin "d" "a", Create, false⟩ : event).e = Create ∧
        (⟨"d", ⟨"d", true⟩, Create, 0⟩ : watched).eDir &&& Create ≠ 0)) :=
  ⟨(c2_amended.1 (not2nat Rename) Write).2.2.2 (by decide),
   c2_amended.2 okOracle ⟨"d", ⟨"d", true⟩, Create, 0⟩ [⟨"a", false⟩]
     ⟨[], [], false⟩ ⟨pjoin "d" "a", Create, false⟩ (by decide)⟩

/-! ## Claim C6 -/

/-- Concrete filesystem for the C6 counterexample: directory `"d"` with one
child file `"f"`. -/
def c6fs : Fs :=
  ⟨fun q => if q = "d" then some ⟨"d", true⟩ else none,
   fun q => if q = "d" then Except.ok [⟨"f", false⟩]
            else Except.error Err.notExist⟩

/-- Concrete state for the C6 counterexample: `"d"` is held in the table only
as another directory's child (its `eDir` is zero, `eNonDir` is `Write`). -/
def c6trg : Trg := ⟨[("d", ⟨"d", ⟨"d", true⟩, 0, Write⟩)], ["d"], false⟩

/-- Counterexample to C6 as stated: event processing does not preserve the
record-exists-iff-mask-nonzero invariant.  From a well-formed state, the
write-rescan of a directory watched only as a child (`eDir = 0`) registers
the fresh child `"d/f"` with a completely empty mask, breaking the
invariant. -/
theorem c6_counterexample :
    Wf c6trg ∧
    lkup (process c6fs okOracle "d" natWrite c6trg).2.pthLkp "d/f" =
      some ⟨"d/f", ⟨"f", false⟩, 0, 0⟩ ∧
    ¬ Wf (process c6fs okOracle "d" natWrite c6trg).2 := by
  decide

/-- C6 amended: the invariant (unique key per path, each record's combined
mask nonzero, records natively registered) is preserved by `Watch` (for a
nonzero requested mask), `Unwatch`, `Rewatch` (nonzero new mask) and `Close`,
and by event processing provided the notified directory's own `eDir` is
nonzero whenever a write-rescan is triggered; a directory tracked only as
another directory's child (`eDir = 0`) breaks it (see the counterexample). -/
theorem c6_amended :
    (∀ (fs : Fs) (p : String) (e : Event) (t : Trg),
      Wf t → e ≠ 0 → Wf (Watch fs okOracle p e t).2) ∧
    (∀ (fs : Fs) (p : String) (t : Trg),
      Wf t → Wf (Unwatch fs okOracle p t).2) ∧
    (∀ (fs : Fs) (p : String) (m e : Event) (t : Trg),
      Wf t → e ≠ 0 → Wf (Rewatch fs okOracle p m e t).2) ∧
    (∀ (fs : Fs) (t : Trg), Wf t → Wf (Close fs okOracle t).2) ∧
    (∀ (fs : Fs) (p : String) (ge : Event) (t : Trg), Wf t →
      (∀ w, lkup t.pthLkp p = some w → w.fi.isDir = true →
        w.eDir ≠ 0 ∨ ge &&& not2nat Write = 0 ∨
          ge &&& (not2nat Rename ||| not2nat Remove) ≠ 0) →
      Wf (process fs okOracle p ge t).2) :=
  ⟨Watch_wf, Unwatch_wf, Rewatch_wf, Close_wf, process_wf⟩

/-- Witness for the amended C6: preservation at concrete states — a fresh
watch on the empty table, and processing a notification that resolves to no
record. -/
theorem c6_amended_witness :
    Wf (Watch c6fs okOracle "d" Create ⟨[], [], false⟩).2 ∧
    Wf (process c6fs okOracle "d" natWrite ⟨[], [], false⟩).2 :=
  ⟨c6_amended.1 c6fs "d" Create ⟨[], [], false⟩ (by decide) (by decide),
   c6_amended.2.2.2.2 c6fs "d" natWrite ⟨[], [], false⟩ (by decide)
     (fun w hw => Option.noConfusion hw)⟩

/-! ## Claim C8 -/

theorem closeEntries_frame (fs : Fs) (o : Oracle) (l : List (String × watched))
    (t : Trg) (q : String)
    (h : ∀ pr ∈ l, (pr : String × watched).2.p ≠ q ∧
      hasPfx q (pr.2.p ++ "/") = false) :
    lkup (closeEntries fs o l t).2.pthLkp q = lkup t.pthLkp q := by
  induction l generalizing t with
  | nil => rfl
  | cons pr rest ih =>
      rcases h pr (List.mem_cons_self _ _) with ⟨h1, h2⟩
      have hfr := unwatch_frame fs o pr.2.p pr.2.fi t q (fun he => h1 he.symm) h2
      cases huw : unwatch fs o pr.2.p pr.2.fi t with
      | mk er t1 =>
          rw [huw] at hfr
          simp only at hfr
          have ihr := ih t1 (fun x hx => h x (List.mem_cons_of_mem _ hx))
          cases er with
          | none => simpa [closeEntries, huw] using ihr.trans hfr
          | some er' => simpa [closeEntries, huw] using ihr.trans hfr

theorem closeEntries_removes (fs : Fs) (l : List (String × watched)) (t : Trg)
    (q : String) (w : watched)
    (hwf : Wf t)
    (hkeys : ∀ pr ∈ l, (pr : String × watched).2.p = pr.1)
    (hnd : (l.map Prod.fst).Nodup)
    (hnopfx : ∀ pr ∈ l, (pr : String × watched).1 ≠ q →
      hasPfx q (pr.1 ++ "/") = false)
    (hqin : (q, w) ∈ l)
    (hlk : lkup t.pthLkp q = some w)
    (hfile : w.fi.isDir = false) (hnd0 : w.eNonDir = 0) :
    lkup (closeEntries fs okOracle l t).2.pthLkp q = none := by
  induction l generalizing t w with
  | nil => cases hqin
  | cons pr rest ih =>
      have hndh : (pr.1 :: rest.map Prod.fst).Nodup := by simpa using hnd
      by_cases hpq : pr.1 = q
      · have hpr : pr = (q, w) := by
          rcases List.mem_cons.1 hqin with hh | hh
          · exact hh.symm
          · exfalso
            have hq1 : q ∈ rest.map Prod.fst :=
              List.mem_map.2 ⟨(q, w), hh, rfl⟩
            rw [← hpq] at hq1
            exact (List.nodup_cons.1 hndh).1 hq1
        have hwp : w.p = q := by
          have h0 := hkeys pr (List.mem_cons_self _ _)
          rw [hpr] at h0
          exact h0
        have hreg : q ∈ t.natReg := hwf.lkup_reg hlk
        have hz : (clearMasks w .dir).eNonDir ||| (clearMasks w .dir).eDir = 0 := by
          simp [clearMasks, hnd0]
        have hsu := singleunwatch_zero okOracle q .dir t w hlk hreg hz
        have hueq : unwatch fs okOracle pr.2.p pr.2.fi t =
            (none, { t with pthLkp := delk t.pthLkp q,
                            natReg := eraseReg t.natReg q }) := by
          rw [hpr]
          show unwatch fs okOracle w.p w.fi t = _
          rw [hwp]
          have hfi : w.fi.isDir = false := hfile
          simp [unwatch, hfi, hsu]
        have hfr := closeEntries_frame fs okOracle rest
          { t with pthLkp := delk t.pthLkp q, natReg := eraseReg t.natReg q } q
          (by
            intro x hx
            have hx1 : x.2.p = x.1 := hkeys x (List.mem_cons_of_mem _ hx)
            have hxq : x.1 ≠ q := by
              intro he
              have : q ∈ rest.map Prod.fst := by
                rw [← he]
                exact List.mem_map.2 ⟨x, hx, rfl⟩
              rw [← hpq] at this
              exact (List.nodup_cons.1 hndh).1 this
            refine ⟨by rw [hx1]; exact hxq, ?_⟩
            rw [hx1]
            exact hnopfx x (List.mem_cons_of_mem _ hx) hxq)
        simp only [closeEntries, hueq]
        rw [hfr]
        exact lkup_delk_self t.pthLkp q
      · have hqrest : (q, w) ∈ rest := by
          rcases List.mem_cons.1 hqin with hh | hh
          · exact absurd (by rw [← hh]) hpq
          · exact hh
        have h1 : pr.2.p ≠ q := by
          rw [hkeys pr (List.mem_cons_self _ _)]
          exact hpq
        have h2 : hasPfx q (pr.2.p ++ "/") = false := by
          rw [hkeys pr (List.mem_cons_self _ _)]
          exact hnopfx pr (List.mem_cons_self _ _) hpq
        have hfr := unwatch_frame fs okOracle pr.2.p pr.2.fi t q
          (fun he => h1 he.symm) h2
        cases huw : unwatch fs okOracle pr.2.p pr.2.fi t with
        | mk er t1 =>
            rw [huw] at hfr
            simp only at hfr
            have hwf1 : Wf t1 := by
              have := unwatch_wf fs pr.2.p pr.2.fi t hwf
              rwa [huw] at this
            have hlk1 : lkup t1.pthLkp q = some w := hfr.trans hlk
            have ihr := ih t1 w hwf1
              (fun x hx => hkeys x (List.mem_cons_of_mem _ hx))
              (List.nodup_cons.1 hndh).2
              (fun x hx hxq => hnopfx x (List.mem_cons_of_mem _ hx) hxq)
              hqrest hlk1 hfile hnd0
            cases er with
            | none => simpa [closeEntries, huw] using ihr
            | some er' => simpa [closeEntries, huw] using ihr

/-- The teardown loop splits over any decomposition of the entry list: the
entries after a split point are processed from the state the earlier entries
left, and the accumulated errors combine with `nonil` (first error wins). -/
theorem closeEntries_append (fs : Fs) (o : Oracle)
    (l₁ l₂ : List (String × watched)) (t : Trg) :
    closeEntries fs o (l₁ ++ l₂) t =
      (nonil (closeEntries fs o l₁ t).1
        (closeEntries fs o l₂ (closeEntries fs o l₁ t).2).1,
       (closeEntries fs o l₂ (closeEntries fs o l₁ t).2).2) := by
  induction l₁ generalizing t with
  | nil => simp [closeEntries, nonil]
  | cons pr rest ih =>
      cases huw : unwatch fs o pr.2.p pr.2.fi t with
      | mk er t1 =>
          cases er with
          | none => simp [closeEntries, huw, ih]
          | some er' => simp [closeEntries, huw, ih, nonil]

/-- C8: `Close` — after the stop/acknowledge handshake with the monitor loop
(modelled from the spec as having completed) — tears down the table and
always releases the native handle; a failing unwatch of any individual entry
is recorded in the accumulated error (`Close` returns the `nonil`-combined,
hence non-nil, error) and does not abort the teardown: the remaining entries
are still processed from the post-failure state, the handle is still
released, and every plain-file entry (not watched as any tabled directory's
child) still has its record removed. -/
theorem c8_close_teardown :
    (∀ (fs : Fs) (o : Oracle) (t : Trg), (Close fs o t).2.closed = true) ∧
    (∀ (fs : Fs) (t : Trg) (q : String) (w : watched),
      Wf t → lkup t.pthLkp q = some w → w.fi.isDir = false → w.eNonDir = 0 →
      (∀ d ∈ t.pthLkp.map Prod.fst, d ≠ q → hasPfx q (d ++ "/") = false) →
      lkup (Close fs okOracle t).2.pthLkp q = none) ∧
    (∀ (fs : Fs) (o : Oracle) (t : Trg) (l₁ l₂ : List (String × watched))
        (pr : String × watched) (er : Err) (t1 : Trg),
      t.pthLkp = l₁ ++ pr :: l₂ →
      unwatch fs o pr.2.p pr.2.fi (closeEntries fs o l₁ t).2 = (some er, t1) →
      (Close fs o t).1 = nonil (closeEntries fs o l₁ t).1 (some er) ∧
      (Close fs o t).1 ≠ none ∧
      (Close fs o t).2 =
        { (closeEntries fs o l₂ t1).2 with closed := true }) := by
  refine ⟨?_, ?_, ?_⟩
  · intro fs o t
    cases hce : closeEntries fs o t.pthLkp t with
    | mk er t1 => simp [Close, hce]
  · intro fs t q w hwf hlk hfile hnd0 hnopfx
    have hrem := closeEntries_removes fs t.pthLkp t q w hwf
      (fun pr hpr => hwf.2.2.1 pr hpr) hwf.1
      (fun pr hpr hne => hnopfx pr.1 (List.mem_map.2 ⟨pr, hpr, rfl⟩) hne)
      (lkup_mem t.pthLkp q w hlk) hlk hfile hnd0
    cases hce : closeEntries fs okOracle t.pthLkp t with
    | mk er t1 =>
        rw [hce] at hrem
        simpa [Close, hce] using hrem
  · intro fs o t l₁ l₂ pr er t1 hsplit hfail
    have happ := closeEntries_append fs o l₁ (pr :: l₂) t
    have hstep : closeEntries fs o (pr :: l₂) (closeEntries fs o l₁ t).2 =
        (some er, (closeEntries fs o l₂ t1).2) := by
      simp [closeEntries, hfail, nonil]
    have hmain : closeEntries fs o t.pthLkp t =
        (nonil (closeEntries fs o l₁ t).1 (some er),
         (closeEntries fs o l₂ t1).2) := by
      rw [hsplit, happ, hstep]
    refine ⟨by simp [Close, hmain], ?_, by simp [Close, hmain]⟩
    have h2 : (Close fs o t).1 =
        nonil (closeEntries fs o l₁ t).1 (some er) := by
      simp [Close, hmain]
    rw [h2]
    cases (closeEntries fs o l₁ t).1 <;> simp [nonil]

/-- Witness for C8 at a concrete state: two entries, a directory `"g"` whose
teardown fails (its listing errors) and a plain file `"f"`; `Close` still
removes `"f"`'s record, reports the failure through a non-nil accumulated
error, and releases the handle. -/
theorem c8_close_teardown_witness :
    (Close ⟨fun _ => none, fun _ => Except.error Err.nativeFail⟩ okOracle
      ⟨[("g", ⟨"g", ⟨"g", true⟩, Write, 0⟩), ("f", ⟨"f", ⟨"f", false⟩, Write, 0⟩)],
       ["g", "f"], false⟩).2.closed = true ∧
    lkup (Close ⟨fun _ => none, fun _ => Except.error Err.nativeFail⟩ okOracle
      ⟨[("g", ⟨"g", ⟨"g", true⟩, Write, 0⟩), ("f", ⟨"f", ⟨"f", false⟩, Write, 0⟩)],
       ["g", "f"], false⟩).2.pthLkp "f" = none ∧
    (Close ⟨fun _ => none, fun _ => Except.error Err.nativeFail⟩ okOracle
      ⟨[("g", ⟨"g", ⟨"g", true⟩, Write, 0⟩), ("f", ⟨"f", ⟨"f", false⟩, Write, 0⟩)],
       ["g", "f"], false⟩).1 ≠ none :=
  ⟨c8_close_teardown.1 ⟨fun _ => none, fun _ => Except.error Err.nativeFail⟩
      okOracle
      ⟨[("g", ⟨"g", ⟨"g", true⟩, Write, 0⟩), ("f", ⟨"f", ⟨"f", false⟩, Write, 0⟩)],
       ["g", "f"], false⟩,
   c8_close_teardown.2.1 ⟨fun _ => none, fun _ => Except.error Err.nativeFail⟩
      ⟨[("g", ⟨"g", ⟨"g", true⟩, Write, 0⟩), ("f", ⟨"f", ⟨"f", false⟩, Write, 0⟩)],
       ["g", "f"], false⟩
      "f" ⟨"f", ⟨"f", false⟩, Write, 0⟩
      (by decide) (by decide) rfl rfl (by decide),
   (c8_close_teardown.2.2 ⟨fun _ => none, fun _ => Except.error Err.nativeFail⟩
      okOracle
      ⟨[("g", ⟨"g", ⟨"g", true⟩, Write, 0⟩), ("f", ⟨"f", ⟨"f", false⟩, Write, 0⟩)],
       ["g", "f"], false⟩
      [] [("f", ⟨"f", ⟨"f", false⟩, Write, 0⟩)] ("g", ⟨"g", ⟨"g", true⟩, Write, 0⟩)
      Err.nativeFail
      ⟨[("g", ⟨"g", ⟨"g", true⟩, Write, 0⟩), ("f", ⟨"f", ⟨"f", false⟩, Write, 0⟩)],
       ["g", "f"], false⟩
      rfl (by decide)).2.1⟩

end Notify
